import Mathlib

set_option autoImplicit false

/-!
# Airtable synchroniser (`src/Airtable.js`)

Shallow embedding of the `Airtable` class: the status log and its collapsed
view, the merge step of `fetchBase`, the cursor computation
`getNewestRecordDate`, the page task of `_queuePage`, and the synchronous
segments of `fetchBase` between its suspension points.

Conventions of the embedding.
* A JavaScript object with string keys is an insertion-ordered association
  list (`Obj`); reading a key takes the first entry, writing replaces the first
  entry or appends.
* A `Date` is its time value in milliseconds (an integer); an invalid date
  and `NaN` are `none`.
* `Date.now()`, the transport (`got`), the date parser and the transform
  (`parseTables`) are inputs of the functions that use them.
* An asynchronous method is cut at its `await`s into synchronous segments;
  what other tasks do in between is a step relation over the instance state.
* The status setter is cut at its `emit`: what subscribers do during the
  delivery is an argument of `setStatus`, and a sequence of calls with calls
  made by subscribers is a sequence of `Step`s. The segments of `fetchBase`
  and of the page task assign statuses with subscribers that leave the
  instance alone (`id`).
* The property `at` of a log entry is the field `time`.
* `Object.entries` lists integer-like keys first; the statements below do not
  depend on the order in which tables are visited.
-/

namespace Airtable

/-! ## Data model -/

/-- JavaScript object with string keys, in insertion order. -/
abbrev Obj (α : Type) := List (String × α)

/-- Property read `o[k]`; `none` is `undefined`. -/
def Obj.get {α : Type} (o : Obj α) (k : String) : Option α :=
  match o with
  | [] => none
  | (k', v) :: rest => if k' = k then some v else Obj.get rest k

/-- Property write `o[k] = v`: an existing key keeps its place. -/
def Obj.set {α : Type} (o : Obj α) (k : String) (v : α) : Obj α :=
  match o with
  | [] => [(k, v)]
  | (k', v') :: rest => if k' = k then (k', v) :: rest else (k', v') :: Obj.set rest k v

/-- Record of a table: `id` and the `fields` mapping (field values as text). -/
structure Record where
  id : String
  fields : Obj String
deriving DecidableEq, Repr

/-- Payload of a status value: the `type` tag together with the `data` that
the class attaches to it (`data.err.message` for `errored`, the three counts
for `success`, `data.resumesAt` for `ratelimited`). -/
inductive StatusVal where
  | ready
  | idle
  | fetching
  | parsing
  | reset
  | update
  | success (totalCount updatedCount createdCount : Nat)
  | errored (message : String)
  | ratelimited (resumesAt : Int)
deriving DecidableEq, Repr

/-- Entry of `this.log`. `uid` and `repeatCount` are `none` when the property
is absent from the object. -/
structure Event where
  uid : Option Nat
  time : Int
  val : StatusVal
  repeatCount : Option Nat
deriving DecidableEq, Repr

/-- Structured response carried by a failed request: `statusCode` and the
JSON text of a truthy `body` (`none` for a falsy body). -/
structure Response where
  statusCode : Nat
  body : Option String
deriving DecidableEq, Repr

/-- Error thrown by the transport; `response` is absent for a non-HTTP failure. -/
structure RequestError where
  message : String
  response : Option Response
deriving DecidableEq, Repr

/-- Errors that leave a page task or the cycle. -/
inductive Err where
  | request (e : RequestError)
  | combined (message : String) (originalError : RequestError)
  | transform (message : String)
deriving DecidableEq, Repr

/-- The `message` property of an error. -/
def Err.message : Err → String
  | .request e => e.message
  | .combined m _ => m
  | .transform m => m

/-- Queued page task: the arguments of `_queuePage`. -/
structure PageTask where
  tableName : String
  query : Obj String
  page : Nat
  offset : Option String
deriving DecidableEq, Repr

/-- Constructor options that the modelled methods read. -/
structure Config where
  baseId : String
  apiKey : String
  tableSettings : List (String × Obj String)
  getTableKey : String → String
  parseTables : Obj (List Record) → Except String (Obj (List Record))

/-- Instance state of the class. `queue` holds the tasks added to the
p-queue and not yet started, `paused` its pause flag. -/
structure State where
  log : List Event
  lastParsed : Option (Obj (List Record))
  fromDate : Option Int
  previousFetch : Obj (List Record)
  status : StatusVal
  uid : Nat
  currentFetch : Obj (List Record)
  resetRequested : Bool
  queue : List PageTask
  paused : Bool
deriving DecidableEq, Repr

def MAX_REQS_PER_SEC : Nat := 15

def RATE_LIMIT_DELAY : Int := 30 * 1000

/-! ## Constructor, status setter, requestReset -/

/-- State bundle accepted as `restoreFrom`. -/
structure Restore where
  log : List Event
  lastParsed : Option (Obj (List Record))
  fromDate : Option Int
  previousFetch : Obj (List Record)

/-- The constructor; `now` is `Date.now()`. -/
def construct (restoreFrom : Option Restore) (now : Int) : State :=
  let log := match restoreFrom with
    | some r => r.log
    | none => []
  { log := { uid := none, time := now, val := .ready, repeatCount := none } :: log
    lastParsed := restoreFrom.bind (·.lastParsed)
    fromDate := restoreFrom.bind (·.fromDate)
    previousFetch := match restoreFrom with
      | some r => r.previousFetch
      | none => []
    status := .idle
    uid := 0
    currentFetch := []
    resetRequested := false
    queue := []
    paused := false }

/-- The setter `set status(val)` up to the end of its `emit`: `_status` is
assigned and the entry, carrying the current `uid`, is put in front of the
log. The subscribers of `status` run after this and before `this.uid += 1`. -/
def setStatusWrite (s : State) (val : StatusVal) (now : Int) : State :=
  { s with
    status := val
    log := { uid := some s.uid, time := now, val := val, repeatCount := none } :: s.log }

/-- The last statement of the setter, `this.uid += 1`: it reads `uid` as the
subscribers left it. -/
def setStatusDone (s : State) : State :=
  { s with uid := s.uid + 1 }

/-- The setter `set status(val)`. `during` is what the subscribers of
`status` do to the instance while `emit` delivers the new entry, between the
write of the entry and the increment of `uid`. -/
def setStatus (s : State) (val : StatusVal) (now : Int) (during : State → State) : State :=
  setStatusDone (during (setStatusWrite s val now))

/-- The method `requestReset()`. Its `emit` is its last statement, so what
subscribers do during the delivery comes after it. -/
def requestReset (s : State) (now : Int) : State :=
  { s with
    resetRequested := true
    log := { uid := none, time := now, val := .reset, repeatCount := none } :: s.log }

/-- What callers and subscribers make the instance do, in the order in which
the statements run. A status assignment is two steps, since a subscriber may
call the instance again while the assignment's event is delivered: such calls
lie between `assignBegin` and the matching `assignEnd`. -/
inductive Step where
  | assignBegin (val : StatusVal) (now : Int)
  | assignEnd
  | requestReset (now : Int)
deriving DecidableEq, Repr

def Step.apply (s : State) : Step → State
  | .assignBegin val now => setStatusWrite s val now
  | .assignEnd => setStatusDone s
  | .requestReset now => Airtable.requestReset s now

/-- Runs the steps in order. -/
def runSteps (s : State) (steps : List Step) : State :=
  steps.foldl Step.apply s

/-! ## collapsedLog -/

/-- The filter of `collapsedLog`: types update, success, errored, reset. -/
def displayed (e : Event) : Bool :=
  match e.val with
  | .update => true
  | .success _ _ _ => true
  | .errored _ => true
  | .reset => true
  | _ => false

/-- The `sameError` test on `collapsedLog[i]` (`c`) and `collapsedLog[i - 1]` (`p`). -/
def sameError (c p : Event) : Bool :=
  match c.val, p.val with
  | .errored m, .errored m' => m == m'
  | _, _ => false

/-- The `sameNoResult` test. -/
def sameNoResult (c p : Event) : Bool :=
  match c.val, p.val with
  | .success t _ _, .success t' _ _ => t == 0 && t' == 0
  | _, _ => false

/-- The two statements `if (!e.repeatCount) e.repeatCount = 0` and
`e.repeatCount++`. -/
def bumpRepeat (e : Event) : Event :=
  let zeroed : Nat := match e.repeatCount with
    | none => 0
    | some n => n
  { e with repeatCount := some (zeroed + 1) }

/-- Positions in the log of the entries that pass the filter: the filtered
array holds references to the log's own entries. -/
def displayedIndices (log : List Event) : List Nat :=
  (List.range log.length).filter (fun j =>
    match log[j]? with
    | some e => displayed e
    | none => false)

/-- The `while` loop of `collapsedLog`. `heap` is the log (the objects the
array refers to), `arr` the array of references, `i` the loop index. `none`
when the fuel is used up before the loop ends or an index falls outside. -/
def collapseLoop : Nat → List Event → List Nat → Nat → Option (List Event × List Nat)
  | 0, heap, arr, i => if i < arr.length then none else some (heap, arr)
  | fuel + 1, heap, arr, i =>
    if i < arr.length then
      match arr[i]?, arr[i - 1]? with
      | some c, some p =>
        match heap[c]?, heap[p]? with
        | some ec, some ep =>
          if sameError ec ep || sameNoResult ec ep then
            collapseLoop fuel (heap.set p (bumpRepeat ep)) (arr.eraseIdx i) i
          else
            collapseLoop fuel heap arr (i + 1)
        | _, _ => none
      | _, _ => none
    else some (heap, arr)

/-- Result of reading `collapsedLog`: the log afterwards, the references
returned, and the entries they point to. -/
structure Collapsed where
  log : List Event
  indices : List Nat
  entries : List Event
deriving DecidableEq, Repr

/-- The getter `collapsedLog`. -/
def collapsedLog (log : List Event) : Option Collapsed :=
  let arr := displayedIndices log
  match collapseLoop arr.length log arr 1 with
  | some (heap, out) =>
    some { log := heap, indices := out, entries := out.filterMap (fun j => heap[j]?) }
  | none => none

/-! ## Merge step of fetchBase -/

/-- Array method `findIndex`; `none` stands for `-1`. -/
def findIndex {α : Type} (p : α → Bool) : List α → Option Nat
  | [] => none
  | x :: xs => if p x then some 0 else (findIndex p xs).map (· + 1)

/-- Accumulator of the merge loops. -/
structure MergeState where
  previousFetch : Obj (List Record)
  createdCount : Nat
  updatedCount : Nat
deriving DecidableEq, Repr

/-- The sequence stored under `table`, empty when the key is absent. -/
def tableOf (o : Obj (List Record)) (table : String) : List Record :=
  (o.get table).getD []

/-- Body of the inner loop, for one fetched record. -/
def mergeRecord (table : String) (st : MergeState) (record : Record) : MergeState :=
  let existing := tableOf st.previousFetch table
  match findIndex (fun existingRecord => existingRecord.id == record.id) existing with
  | some existingI =>
    { st with
      updatedCount := st.updatedCount + 1
      previousFetch := st.previousFetch.set table (existing.set existingI record) }
  | none =>
    { st with
      createdCount := st.createdCount + 1
      previousFetch := st.previousFetch.set table (existing ++ [record]) }

/-- Body of the outer loop, for one entry of `currentFetch`. -/
def mergeTable (st : MergeState) (entry : String × List Record) : MergeState :=
  let st1 : MergeState :=
    match st.previousFetch.get entry.1 with
    | some _ => st
    | none => { st with previousFetch := st.previousFetch.set entry.1 [] }
  entry.2.foldl (mergeRecord entry.1) st1

/-- The merge loops of `fetchBase` with both counters starting at 0. -/
def mergeCycle (previousFetch currentFetch : Obj (List Record)) : MergeState :=
  currentFetch.foldl mergeTable { previousFetch := previousFetch, createdCount := 0, updatedCount := 0 }

/-! ## getNewestRecordDate -/

/-- The values `_.get(r, "fields.last_modified", null)` that survive
`_.compact()`: absent (null) and empty-string values are dropped. -/
def lastModifiedValues (fetched : Obj (List Record)) : List String :=
  ((fetched.map (·.2)).flatten.map (fun r => r.fields.get "last_modified")).filterMap
    (fun v => match v with
      | some jsonDate => if jsonDate = "" then none else some jsonDate
      | none => none)

/-- JavaScript number as far as `getNewestRecordDate` meets it: time values
are integers, so no rounding occurs. -/
inductive JSNumber where
  | nan
  | negInfinity
  | finite (n : Int)
deriving DecidableEq, Repr

/-- The larger of two numbers as `Math.max` takes it: `NaN` wins over all. -/
def JSNumber.max2 : JSNumber → JSNumber → JSNumber
  | .nan, _ => .nan
  | _, .nan => .nan
  | .negInfinity, b => b
  | a, .negInfinity => a
  | .finite a, .finite b => .finite (max a b)

/-- `Math.max(...timestamps)`: `-Infinity` without arguments. -/
def mathMax (timestamps : List JSNumber) : JSNumber :=
  timestamps.foldl JSNumber.max2 .negInfinity

/-- `new Date(number)`: `none` is an invalid date. -/
def newDate : JSNumber → Option Int
  | .finite n => some n
  | _ => none

/-- `new Date(text).getTime()` given the parser: `NaN` when it fails. -/
def getTime (parseDate : String → Option Int) (jsonDate : String) : JSNumber :=
  match parseDate jsonDate with
  | some t => .finite t
  | none => .nan

/-- The static method `getNewestRecordDate`. `parseDate` parses a date text
(`none` when it does not parse); `now` is `new Date()`. -/
def getNewestRecordDate (parseDate : String → Option Int) (now : Int)
    (fetched : Obj (List Record)) : Int :=
  match newDate (mathMax ((lastModifiedValues fetched).map (getTime parseDate))) with
  | some date => date
  | none => now

/-! ## Page task of _queuePage -/

/-- Object spread: the entries of `extra` written over `base`. -/
def spread (base extra : Obj String) : Obj String :=
  extra.foldl (fun o kv => o.set kv.1 kv.2) base

/-- The formula text of the modified-after filter. -/
def modifiedAfter (toJSON : Int → String) (fromDate : Int) : String :=
  "IS_AFTER(LAST_MODIFIED_TIME(), " ++ String.singleton (Char.ofNat 39) ++ toJSON fromDate ++
    String.singleton (Char.ofNat 39) ++ ")"

/-- The offset entry spread into the request object when `offset` is truthy. -/
def offsetPart (task : PageTask) : Obj String :=
  match task.offset with
  | some offset => if offset = "" then [] else [("offset", offset)]
  | none => []

/-- The `filterByFormula` entry spread into the request object when
`this.fromDate` is set. `toJSON` is `Date.prototype.toJSON`. -/
def filterPart (toJSON : Int → String) (s : State) : Obj String :=
  match s.fromDate with
  | some fromDate => [("filterByFormula", modifiedAfter toJSON fromDate)]
  | none => []

/-- The entries of `requestQuery`: the configured query, then the offset,
then the modified-after filter. -/
def requestQuery (toJSON : Int → String) (s : State) (task : PageTask) : Obj String :=
  spread (spread (spread [] task.query) (offsetPart task)) (filterPart toJSON s)

/-- The `try` block after the response arrived with `body.records` and
`body.offset`: append to `currentFetch[key]`, queue the next page. -/
def pageTaskSuccess (cfg : Config) (s : State) (task : PageTask)
    (records : List Record) (offset : Option String) : State :=
  let key := cfg.getTableKey task.tableName
  let s1 := { s with currentFetch := s.currentFetch.set key (tableOf s.currentFetch key ++ records) }
  match offset with
  | some next =>
    if next = "" then s1
    else { s1 with queue := s1.queue ++
      [{ tableName := task.tableName, query := task.query, page := task.page + 1, offset := some next }] }
  | none => s1

/-- Message of the combined error. -/
def failureMessage (task : PageTask) (response : Response) : String :=
  "Table " ++ task.tableName ++ " page " ++ toString task.page ++ ": Failure (status " ++
    toString response.statusCode ++ ": " ++
    (match response.body with
      | some text => text
      | none => "undefined") ++ ")."

/-- How the `catch` block leaves its first segment. -/
inductive CatchResult where
  | throws (err : Err) (s : State)
  | waits (s : State)
deriving DecidableEq, Repr

/-- The `catch` block up to the `await` of the rate-limit delay. -/
def pageTaskCatch (s : State) (task : PageTask) (err : RequestError) (now : Int) : CatchResult :=
  match err.response with
  | none => .throws (.request err) s
  | some response =>
    if response.statusCode ≠ 429 then
      .throws (.combined (failureMessage task response) err) { s with queue := [] }
    else
      .waits { setStatus s (.ratelimited (now + RATE_LIMIT_DELAY)) now id with paused := true }

/-- The `catch` block after the delay: requeue, status `fetching`, start. -/
def pageTaskResume (s : State) (task : PageTask) (now : Int) : State :=
  { setStatus { s with queue := s.queue ++ [task] } .fetching now id with paused := false }

/-- What the transport answers to one request. -/
inductive TransportResult where
  | body (records : List Record) (offset : Option String)
  | fails (err : RequestError)
deriving DecidableEq, Repr

/-- How the promise of a page task settles. -/
inductive TaskEnd where
  | resolved (s : State)
  | rejected (err : Err) (s : State)
deriving DecidableEq, Repr

/-- One page task run without interleaving; `later` is the clock after the
rate-limit delay. -/
def pageTask (cfg : Config) (s : State) (task : PageTask) (answer : TransportResult)
    (now later : Int) : TaskEnd :=
  match answer with
  | .body records offset => .resolved (pageTaskSuccess cfg s task records offset)
  | .fails err =>
    match pageTaskCatch s task err now with
    | .throws e s1 => .rejected e s1
    | .waits s1 => .resolved (pageTaskResume s1 task later)

/-! ## fetchBase -/

/-- From the call of `fetchBase` to the `await` of the fetch phase. -/
def fetchBaseStart (cfg : Config) (s : State) (now : Int) : State :=
  let s1 := setStatus s .fetching now id
  let s2 := if s1.resetRequested then
      { s1 with previousFetch := [], fromDate := none, resetRequested := false }
    else s1
  let s3 := { s2 with currentFetch := [] }
  { s3 with queue := s3.queue ++ cfg.tableSettings.map (fun setting =>
      { tableName := setting.1, query := setting.2, page := 1, offset := none }) }

/-- What happens to the instance between the start of a cycle and the end
of its fetch phase: segments of page tasks, the queue starting a task, and
calls of `requestReset` from outside. -/
inductive FetchStep (cfg : Config) : State → State → Prop where
  | started (s : State) : FetchStep cfg s { s with queue := s.queue.tail }
  | answered (s : State) (task : PageTask) (records : List Record) (offset : Option String) :
      FetchStep cfg s (pageTaskSuccess cfg s task records offset)
  | threw (s : State) (task : PageTask) (err : RequestError) (now : Int) (e : Err) (s1 : State) :
      pageTaskCatch s task err now = .throws e s1 → FetchStep cfg s s1
  | paused (s : State) (task : PageTask) (err : RequestError) (now : Int) (s1 : State) :
      pageTaskCatch s task err now = .waits s1 → FetchStep cfg s s1
  | resumed (s : State) (task : PageTask) (now : Int) :
      FetchStep cfg s (pageTaskResume s task now)
  | resetAsked (s : State) (now : Int) : FetchStep cfg s (requestReset s now)

/-- States the fetch phase can be in, from the state after `fetchBaseStart`. -/
def FetchReach (cfg : Config) (s0 s : State) : Prop :=
  Relation.ReflTransGen (FetchStep cfg) s0 s

/-- One thing that happens during the fetch phase, with its inputs: the
queue starts a task, a request is answered with records, a request fails, a
rate-limited task resumes after the delay, a caller requests a reset. -/
inductive FetchEvent where
  | started
  | answered (task : PageTask) (records : List Record) (offset : Option String)
  | failed (task : PageTask) (err : RequestError) (now : Int)
  | resumed (task : PageTask) (now : Int)
  | resetAsked (now : Int)
deriving DecidableEq, Repr

def FetchEvent.apply (cfg : Config) (s : State) : FetchEvent → State
  | .started => { s with queue := s.queue.tail }
  | .answered task records offset => pageTaskSuccess cfg s task records offset
  | .failed task err now =>
    match pageTaskCatch s task err now with
    | .throws _ s1 => s1
    | .waits s1 => s1
  | .resumed task now => pageTaskResume s task now
  | .resetAsked now => requestReset s now

/-- The fetch phase as the sequence of its events, from the state after
`fetchBaseStart`. -/
def runFetch (cfg : Config) (s : State) (events : List FetchEvent) : State :=
  events.foldl (FetchEvent.apply cfg) s

/-- How a call of `fetchBase` ends: the instance state, and the value
returned (`lastParsed`) or the error thrown with its `when` tag. -/
structure CycleEnd where
  state : State
  result : Except (String × Err) (Option (Obj (List Record)))

/-- The outer `catch` of `fetchBase`. -/
def fetchBaseCatch (s : State) (phase : String) (err : Err) (now : Int) : CycleEnd :=
  { state := setStatus { s with queue := [] } (.errored err.message) now id
    result := .error (phase, err) }

/-- The end of `fetchBase` from `this.queue.clear()` on. -/
def fetchBaseSucceed (s : State) (totalCount updatedCount createdCount : Nat) (now : Int) :
    CycleEnd :=
  let s1 :=
    setStatus { s with queue := [] } (.success totalCount updatedCount createdCount) now id
  let s2 := setStatus s1 .idle now id
  { state := s2, result := .ok s2.lastParsed }

/-- From the end of the fetch phase to the end of `fetchBase`: the new
cursor, the merge, the transform when due, the final statuses. -/
def fetchBaseFinish (cfg : Config) (parseDate : String → Option Int) (s : State) (now : Int) :
    CycleEnd :=
  let s1 := { s with fromDate := some (getNewestRecordDate parseDate now s.currentFetch) }
  let merged := mergeCycle s1.previousFetch s1.currentFetch
  let s2 := { s1 with previousFetch := merged.previousFetch }
  let totalCount := merged.createdCount + merged.updatedCount
  if totalCount > 0 || s2.lastParsed.isNone then
    let s3 := setStatus s2 .parsing now id
    match cfg.parseTables s3.previousFetch with
    | .ok parsed =>
      fetchBaseSucceed { s3 with lastParsed := some parsed } totalCount merged.updatedCount
        merged.createdCount now
    | .error message => fetchBaseCatch s3 "parsing" (.transform message) now
  else
    fetchBaseSucceed s2 totalCount merged.updatedCount merged.createdCount now

/-! ## Vocabulary of the merge statements -/

/-- One step of the inner merge loop on the sequence of one table: replace
the first entry with the record's id, or append the record. -/
def upsert (existing : List Record) (record : Record) : List Record :=
  match findIndex (fun existingRecord => existingRecord.id == record.id) existing with
  | some existingI => existing.set existingI record
  | none => existing ++ [record]

/-- The ids of a sequence of records, in order. -/
def ids (records : List Record) : List String :=
  records.map (·.id)

/-- All records that the cycle result holds under `table`, in order. For
an object, whose keys are distinct, this is the sequence stored under the key. -/
def fetchedFor (currentFetch : Obj (List Record)) (table : String) : List Record :=
  ((currentFetch.filter (fun entry => entry.1 == table)).map (·.2)).flatten

/-- The (resource, id) pairs of the records of a cycle result, one per record. -/
def fetchedPairs (currentFetch : Obj (List Record)) : List (String × String) :=
  (currentFetch.map (fun entry => entry.2.map (fun r => (entry.1, r.id)))).flatten

/-- Whether the snapshot holds a record with this id under this resource. -/
def hasId (snapshot : Obj (List Record)) (pair : String × String) : Bool :=
  (tableOf snapshot pair.1).any (fun r => r.id == pair.2)

/-- The distinct (resource, id) pairs of the cycle result that are absent
from the snapshot. -/
def newPairs (snapshot currentFetch : Obj (List Record)) : List (String × String) :=
  (fetchedPairs currentFetch).dedup.filter (fun pair => !hasId snapshot pair)

/-- Total number of records in a snapshot. -/
def totalRecords (snapshot : Obj (List Record)) : Nat :=
  (snapshot.map (fun entry => entry.2.length)).sum

/-! ## Vocabulary of the collapsedLog statements -/

/-- Whether the loop merges the entry at log position `c` into the entry at
log position `p` when it meets them as `collapsedLog[i]` and
`collapsedLog[i - 1]`. -/
def collapses (log : List Event) (c p : Nat) : Bool :=
  match log[c]?, log[p]? with
  | some ec, some ep => sameError ec ep || sameNoResult ec ep
  | _, _ => false

/-- What the two tests of the loop compare: the message of an `errored`
entry, or the fact that a `success` entry reports `totalCount` 0; `none` for
an entry that never merges. -/
def mergeKey : StatusVal → Option (Option String)
  | .errored m => some (some m)
  | .success t _ _ => if t = 0 then some none else none
  | _ => none

/-- The merge key of the entry at a log position. -/
def keyAt (heap : List Event) (j : Nat) : Option (Option String) :=
  (heap[j]?).bind (fun e => mergeKey e.val)

/-! ## Sample data -/

/-- Whether a step starts a status assignment. -/
def Step.isAssign : Step → Bool
  | .assignBegin _ _ => true
  | _ => false

/-- Whether no status assignment starts while the event of another one is
being delivered; `delivering` says whether an assignment is open at the start
of the steps. At the end none may be open. -/
def unnested : Bool → List Step → Bool
  | delivering, [] => !delivering
  | delivering, .assignBegin _ _ :: rest => !delivering && unnested true rest
  | delivering, .assignEnd :: rest => delivering && unnested false rest
  | delivering, .requestReset _ :: rest => unnested delivering rest

/-- Calls on a fresh instance: an assignment during whose delivery a
subscriber requests a reset, a reset request, another assignment. -/
def sampleSteps : List Step :=
  [.assignBegin .fetching 10, .requestReset 15, .assignEnd, .requestReset 20,
   .assignBegin .idle 30, .assignEnd]

/-- An assignment of `idle` during whose delivery a subscriber assigns
`fetching` (as the first statement of `fetchBase` does). -/
def nestedSteps : List Step :=
  [.assignBegin .idle 10, .assignBegin .fetching 10, .assignEnd, .assignEnd]

/-- Date parser that knows two ISO instants: 2020-01-01T00:00:00.000Z is
1577836800000 ms and 2019-01-01T00:00:00.000Z is 1546300800000 ms; any other
text does not parse. -/
def sampleParse (text : String) : Option Int :=
  if text = "2020-01-01T00:00:00.000Z" then some 1577836800000
  else if text = "2019-01-01T00:00:00.000Z" then some 1546300800000
  else none

/-- Record with the given id and `fields.last_modified`. -/
def sampleRecord (id lastModified : String) : Record :=
  { id := id, fields := [("last_modified", lastModified)] }

/-- Cycle result in which one record parses and another does not. -/
def mixedFetch : Obj (List Record) :=
  [("widgets", [sampleRecord "rec1" "2020-01-01T00:00:00.000Z", sampleRecord "rec2" "soon"])]

/-- Cycle result in which both records parse. -/
def datedFetch : Obj (List Record) :=
  [("widgets", [sampleRecord "rec1" "2020-01-01T00:00:00.000Z",
    sampleRecord "rec2" "2019-01-01T00:00:00.000Z"])]

/-- Configuration with one table, keys equal to table names, and the
identity transform. -/
def sampleConfig : Config :=
  { baseId := "appBase"
    apiKey := "key"
    tableSettings := [("widgets", [])]
    getTableKey := fun tableName => tableName
    parseTables := fun val => .ok val }

/-- The first page task of `sampleConfig`. -/
def sampleTask : PageTask :=
  { tableName := "widgets", query := [], page := 1, offset := none }

/-- Instance restored with the cursor at 2020-01-01 and an empty snapshot. -/
def restoredState : State :=
  construct (some ⟨[], none, some 1577836800000, []⟩) 1600000000000

/-- The restored instance after the start of a cycle and one page answer that
holds a record last modified on 2019-01-01. -/
def staleCycle : State :=
  pageTaskSuccess sampleConfig (fetchBaseStart sampleConfig restoredState 1600000000000)
    sampleTask [sampleRecord "rec1" "2019-01-01T00:00:00.000Z"] none

/-- The restored instance after the start of a cycle and one page answer that
holds a record last modified on 2020-01-01. -/
def freshCycle : State :=
  pageTaskSuccess sampleConfig (fetchBaseStart sampleConfig restoredState 1600000000000)
    sampleTask [sampleRecord "rec1" "2020-01-01T00:00:00.000Z"] none

/-- Request failure that carries a response with the given status code. -/
def httpFailure (statusCode : Nat) : RequestError :=
  { message := "Response code " ++ toString statusCode
    response := some { statusCode := statusCode, body := some "\"busy\"" } }

/-- Request failure without a response. -/
def networkFailure : RequestError :=
  { message := "connect ECONNREFUSED", response := none }

/-- An entry written by the status setter. -/
def statusEvent (uid : Nat) (val : StatusVal) : Event :=
  { uid := some uid, time := 0, val := val, repeatCount := none }

/-- Log, newest first, of a successful cycle followed by two failed cycles
with the same error message and a reset request. Its displayed entries are
at the positions 0, 1, 3 and 6. -/
def twoErrorsLog : List Event :=
  [{ uid := none, time := 0, val := .reset, repeatCount := none },
   statusEvent 7 (.errored "timeout"), statusEvent 6 .fetching,
   statusEvent 5 (.errored "timeout"), statusEvent 4 .fetching,
   statusEvent 3 .idle, statusEvent 2 (.success 3 0 3), statusEvent 1 .parsing,
   statusEvent 0 .fetching,
   { uid := none, time := 0, val := .ready, repeatCount := none }]

/-- The same with three failed cycles. Its displayed entries are at the
positions 0, 1, 3, 5 and 8. -/
def threeErrorsLog : List Event :=
  [{ uid := none, time := 0, val := .reset, repeatCount := none },
   statusEvent 9 (.errored "timeout"), statusEvent 8 .fetching,
   statusEvent 7 (.errored "timeout"), statusEvent 6 .fetching,
   statusEvent 5 (.errored "timeout"), statusEvent 4 .fetching,
   statusEvent 3 .idle, statusEvent 2 (.success 3 0 3), statusEvent 1 .parsing,
   statusEvent 0 .fetching,
   { uid := none, time := 0, val := .ready, repeatCount := none }]

/-- Snapshot of one table with three records. -/
def sampleSnapshot : Obj (List Record) :=
  [("widgets", [sampleRecord "rec1" "a", sampleRecord "rec2" "b", sampleRecord "rec3" "c"])]

/-- Cycle result for that table: `rec2` twice with new fields, and a new id. -/
def sampleCycle : Obj (List Record) :=
  [("widgets", [sampleRecord "rec2" "b1", sampleRecord "rec4" "d", sampleRecord "rec2" "b2"])]

/-- Instance that holds `sampleSnapshot` and, as the result of a finished
fetch phase, `sampleCycle`; a transform has completed before. -/
def mergeReadyState : State :=
  { construct none 0 with
    previousFetch := sampleSnapshot
    currentFetch := sampleCycle
    lastParsed := some sampleSnapshot }

/-- Cycle result of one table fetched over two pages into an empty snapshot:
three records with distinct ids. -/
def firstCycle : Obj (List Record) :=
  [("widgets", [sampleRecord "rec1" "a", sampleRecord "rec2" "b", sampleRecord "rec3" "c"])]

/-- An instance with a cursor whose snapshot and whose accumulator of the
last cycle both hold the three records of `sampleSnapshot`. -/
def staleState : State :=
  { restoredState with previousFetch := sampleSnapshot, currentFetch := sampleSnapshot }

/-- The state after a reset request on `staleState` and the start of the
next cycle. -/
def resetStart : State :=
  fetchBaseStart sampleConfig (runSteps (requestReset staleState 1600000000000) [])
    1600000000001

/-- A fetch phase: the queue starts the task, the request is answered with
one record and no offset. -/
def resetEvents : List FetchEvent :=
  [.started, .answered sampleTask [sampleRecord "rec9" "z"] none]

/-! ## Status log: uids -/

theorem runSteps_cons (s : State) (step : Step) (steps : List Step) :
    runSteps s (step :: steps) = runSteps (step.apply s) steps := rfl

/-- The setter without a subscriber that calls back is its two steps. -/
theorem setStatus_eq_steps (s : State) (val : StatusVal) (now : Int) :
    setStatus s val now id = runSteps s [.assignBegin val now, .assignEnd] := rfl

theorem runSteps_uids (steps : List Step) : ∀ (s : State) (delivering : Bool),
    unnested delivering steps = true →
    s.log.filterMap (·.uid) = (List.range (s.uid + if delivering then 1 else 0)).reverse →
    (runSteps s steps).log.filterMap (·.uid) = (List.range (runSteps s steps).uid).reverse ∧
      (runSteps s steps).uid =
        s.uid + (if delivering then 1 else 0) + steps.countP Step.isAssign := by
  induction steps with
  | nil =>
    intro s delivering hq h
    cases delivering with
    | true => simp [unnested] at hq
    | false => exact ⟨by simpa using h, by simp [runSteps]⟩
  | cons step steps ih =>
    intro s delivering hq h
    rw [runSteps_cons]
    cases step with
    | assignBegin val now =>
      cases delivering with
      | true => simp [unnested] at hq
      | false =>
        have hq1 : unnested true steps = true := by simpa [unnested] using hq
        have h1 : (Step.apply s (.assignBegin val now)).log.filterMap (·.uid) =
            (List.range ((Step.apply s (.assignBegin val now)).uid +
              if true then 1 else 0)).reverse := by
          simp at h
          simp [Step.apply, setStatusWrite, List.range_succ, h]
        obtain ⟨a, b⟩ := ih _ true hq1 h1
        refine ⟨a, ?_⟩
        rw [b]
        simp [Step.apply, setStatusWrite, Step.isAssign]
        omega
    | assignEnd =>
      cases delivering with
      | false => simp [unnested] at hq
      | true =>
        have hq1 : unnested false steps = true := by simpa [unnested] using hq
        have h1 : (Step.apply s .assignEnd).log.filterMap (·.uid) =
            (List.range ((Step.apply s .assignEnd).uid + if false then 1 else 0)).reverse := by
          simp at h
          simp [Step.apply, setStatusDone, h]
        obtain ⟨a, b⟩ := ih _ false hq1 h1
        refine ⟨a, ?_⟩
        rw [b]
        simp [Step.apply, setStatusDone, Step.isAssign]
    | requestReset now =>
      have hq1 : unnested delivering steps = true := by simpa [unnested] using hq
      have h1 : (Step.apply s (.requestReset now)).log.filterMap (·.uid) =
          (List.range ((Step.apply s (.requestReset now)).uid +
            if delivering then 1 else 0)).reverse := by
        simp [Step.apply, requestReset, h]
      obtain ⟨a, b⟩ := ih _ delivering hq1 h1
      refine ⟨a, ?_⟩
      rw [b]
      simp [Step.apply, requestReset, Step.isAssign]

theorem runSteps_uidless (steps : List Step) : ∀ s : State,
    (∀ e ∈ s.log, e.uid = none → e.val = .ready ∨ e.val = .reset) →
    ∀ e ∈ (runSteps s steps).log, e.uid = none → e.val = .ready ∨ e.val = .reset := by
  induction steps with
  | nil => intro s h; exact h
  | cons step steps ih =>
    intro s h
    rw [runSteps_cons]
    apply ih
    cases step with
    | assignBegin val now =>
      intro e he hu
      simp only [Step.apply, setStatusWrite, List.mem_cons] at he
      rcases he with rfl | he
      · simp at hu
      · exact h e he hu
    | assignEnd => exact h
    | requestReset now =>
      intro e he hu
      simp only [Step.apply, requestReset, List.mem_cons] at he
      rcases he with rfl | he
      · exact Or.inr rfl
      · exact h e he hu

theorem range_reverse_pairwise (n : Nat) : (List.range n).reverse.Pairwise (· > ·) := by
  rw [List.pairwise_reverse]
  exact List.pairwise_lt_range n

/-- How the model renders a status assignment made by a subscriber while
another assignment's event is delivered: both entries are written before
either increment of `uid`. -/
theorem nestedSteps_log :
    (runSteps (construct none 0) nestedSteps).log.map (fun e => (e.val, e.uid)) =
        [(.fetching, some 0), (.idle, some 0), (.ready, none)] ∧
      (runSteps (construct none 0) nestedSteps).uid = 2 ∧ unnested false nestedSteps = false := by
  decide

/-- C5, as the code has it: on an instance constructed without `restoreFrom`,
after any sequence of status assignments and `requestReset` calls in which no
status assignment is made while the event of another one is being delivered
to the subscribers, the uids present in the log are, newest first,
`n - 1, ..., 0` where `n` is the number of status assignments made: every
assignment added one event with a uid, the uids are strictly decreasing along
the newest-first log (strictly increasing in append order) and pairwise
distinct. An entry without uid is a `ready` or a `reset` entry. -/
theorem status_uids_increasing (now : Int) (steps : List Step)
    (h : unnested false steps = true) :
    (runSteps (construct none now) steps).log.filterMap (·.uid) =
        (List.range (steps.countP Step.isAssign)).reverse ∧
      ((runSteps (construct none now) steps).log.filterMap (·.uid)).Pairwise (· > ·) ∧
      ((runSteps (construct none now) steps).log.filterMap (·.uid)).Nodup ∧
      (runSteps (construct none now) steps).uid = steps.countP Step.isAssign ∧
      ∀ e ∈ (runSteps (construct none now) steps).log,
        e.uid = none → e.val = .ready ∨ e.val = .reset := by
  have h0 : (construct none now).log.filterMap (·.uid) =
      (List.range ((construct none now).uid + if false then 1 else 0)).reverse := by
    simp [construct]
  obtain ⟨a, b⟩ := runSteps_uids steps _ false h h0
  have hb : (runSteps (construct none now) steps).uid = steps.countP Step.isAssign := by
    rw [b]; simp [construct]
  rw [hb] at a
  refine ⟨a, ?_, ?_, hb, ?_⟩
  · rw [a]; exact range_reverse_pairwise _
  · rw [a]; exact List.nodup_reverse.mpr (List.nodup_range _)
  · apply runSteps_uidless
    intro e he _
    simp only [construct, List.mem_singleton] at he
    subst he
    exact Or.inl rfl

/-- The theorem `status_uids_increasing` at `sampleSteps`: the two
assignments carry the uids 1 and 0, the `ready` entry and the two `reset`
entries carry none. -/
theorem status_uids_increasing_witness :
    unnested false sampleSteps = true ∧
      (runSteps (construct none 0) sampleSteps).log.filterMap (·.uid) = [1, 0] ∧
      (runSteps (construct none 0) sampleSteps).log.map (·.uid) =
        [some 1, none, none, some 0, none] :=
  ⟨by decide, (status_uids_increasing 0 sampleSteps (by decide)).1, by decide⟩

/-- C5 as stated fails: the `ready` entry that the constructor puts in the
log carries no uid, and neither does the `reset` entry of `requestReset`. -/
theorem status_uids_not_everywhere :
    ¬ (∀ (now : Int) (steps : List Step), unnested false steps = true →
        ∀ e ∈ (runSteps (construct none now) steps).log, e.uid ≠ none) := by
  intro h
  exact h 0 [] rfl { uid := none, time := 0, val := .ready, repeatCount := none }
    (by decide) rfl

/-! ## getNewestRecordDate -/

theorem foldl_max2_nan (l : List JSNumber) : l.foldl JSNumber.max2 .nan = .nan := by
  induction l with
  | nil => rfl
  | cons x xs ih => simpa [List.foldl, JSNumber.max2] using ih

theorem foldl_max2_of_nan_mem (l : List JSNumber) : ∀ acc : JSNumber,
    JSNumber.nan ∈ l → l.foldl JSNumber.max2 acc = .nan := by
  induction l with
  | nil => intro acc h; simp at h
  | cons x xs ih =>
    intro acc h
    rw [List.foldl_cons]
    rcases List.mem_cons.mp h with h1 | h1
    · subst h1
      have : JSNumber.max2 acc .nan = .nan := by cases acc <;> rfl
      rw [this]; exact foldl_max2_nan xs
    · exact ih _ h1

theorem foldl_max2_finite (l : List Int) : ∀ a : Int,
    (l.map JSNumber.finite).foldl JSNumber.max2 (.finite a) = .finite (l.foldl max a) := by
  induction l with
  | nil => intro a; rfl
  | cons x xs ih => intro a; simp only [List.map_cons, List.foldl_cons, JSNumber.max2]; exact ih _

theorem foldl_max_ge (l : List Int) : ∀ a : Int,
    a ≤ l.foldl max a ∧ (∀ t ∈ l, t ≤ l.foldl max a) ∧ (l.foldl max a = a ∨ l.foldl max a ∈ l) := by
  induction l with
  | nil => intro a; simp
  | cons x xs ih =>
    intro a
    obtain ⟨h1, h2, h3⟩ := ih (max a x)
    simp only [List.foldl_cons, List.mem_cons]
    refine ⟨le_trans (le_max_left a x) h1, ?_, ?_⟩
    · intro t ht
      rcases ht with rfl | ht
      · exact le_trans (le_max_right a t) h1
      · exact h2 t ht
    · rcases h3 with h3 | h3
      · rw [h3]
        rcases max_choice a x with h | h
        · exact Or.inl h
        · exact Or.inr (Or.inl h)
      · exact Or.inr (Or.inr h3)

/-- When every value parses, the timestamps are the parsed values. -/
theorem map_getTime_of_parse (p : String → Option Int) (vs : List String)
    (h : ∀ v ∈ vs, p v ≠ none) :
    vs.map (getTime p) = (vs.filterMap p).map JSNumber.finite := by
  induction vs with
  | nil => rfl
  | cons v vs ih =>
    have hv : p v ≠ none := h v (List.mem_cons_self _ _)
    obtain ⟨t, ht⟩ := Option.ne_none_iff_exists'.mp hv
    have := ih (fun w hw => h w (List.mem_cons_of_mem _ hw))
    simp [getTime, ht, List.filterMap_cons, this]

theorem newDate_mathMax_parsed (p : String → Option Int) (vs : List String)
    (hne : vs ≠ []) (h : ∀ v ∈ vs, p v ≠ none) :
    ∃ d, newDate (mathMax (vs.map (getTime p))) = some d ∧
      (∃ v ∈ vs, p v = some d) ∧ ∀ v ∈ vs, ∀ t, p v = some t → t ≤ d := by
  rw [map_getTime_of_parse p vs h]
  cases hvs : vs.filterMap p with
  | nil =>
    cases vs with
    | nil => exact absurd rfl hne
    | cons v vs =>
      obtain ⟨t, ht⟩ := Option.ne_none_iff_exists'.mp (h v (List.mem_cons_self _ _))
      simp [List.filterMap_cons, ht] at hvs
  | cons x xs =>
    have hfold : mathMax ((x :: xs).map JSNumber.finite) = .finite (xs.foldl max x) := by
      simp only [mathMax, List.map_cons, List.foldl_cons, JSNumber.max2]
      exact foldl_max2_finite xs x
    rw [hfold]
    obtain ⟨h1, h2, h3⟩ := foldl_max_ge xs x
    refine ⟨xs.foldl max x, rfl, ?_, ?_⟩
    · have hmem : xs.foldl max x ∈ vs.filterMap p := by
        rw [hvs]
        rcases h3 with h3 | h3
        · rw [h3]; exact List.mem_cons_self _ _
        · exact List.mem_cons_of_mem _ h3
      obtain ⟨v, hv, hpv⟩ := List.mem_filterMap.mp hmem
      exact ⟨v, hv, hpv⟩
    · intro v hv t ht
      have hmem : t ∈ vs.filterMap p := List.mem_filterMap.mpr ⟨v, hv, ht⟩
      rw [hvs] at hmem
      rcases List.mem_cons.mp hmem with rfl | hmem
      · exact h1
      · exact h2 t hmem

theorem newDate_mathMax_unparsed (p : String → Option Int) (vs : List String)
    (h : vs = [] ∨ ∃ v ∈ vs, p v = none) :
    newDate (mathMax (vs.map (getTime p))) = none := by
  rcases h with rfl | ⟨v, hv, hp⟩
  · rfl
  · have : JSNumber.nan ∈ vs.map (getTime p) :=
      List.mem_map.mpr ⟨v, hv, by simp [getTime, hp]⟩
    rw [mathMax, foldl_max2_of_nan_mem _ _ this]
    rfl

theorem getNewestRecordDate_of_unparsed (p : String → Option Int) (now : Int)
    (fetched : Obj (List Record))
    (h : lastModifiedValues fetched = [] ∨ ∃ v ∈ lastModifiedValues fetched, p v = none) :
    getNewestRecordDate p now fetched = now := by
  simp [getNewestRecordDate, newDate_mathMax_unparsed p _ h]

theorem getNewestRecordDate_of_parsed (p : String → Option Int) (now : Int)
    (fetched : Obj (List Record)) (hne : lastModifiedValues fetched ≠ [])
    (hall : ∀ v ∈ lastModifiedValues fetched, p v ≠ none) :
    (∃ v ∈ lastModifiedValues fetched, p v = some (getNewestRecordDate p now fetched)) ∧
      ∀ v ∈ lastModifiedValues fetched, ∀ t, p v = some t →
        t ≤ getNewestRecordDate p now fetched := by
  obtain ⟨d, hd, h1, h2⟩ := newDate_mathMax_parsed p _ hne hall
  have : getNewestRecordDate p now fetched = d := by simp [getNewestRecordDate, hd]
  rw [this]
  exact ⟨h1, h2⟩

/-- C6, as the code has it: `getNewestRecordDate` returns the maximum of the
parsed `fields.last_modified` timestamps when at least one record carries a
non-empty `last_modified` and every such value parses; it returns the current
time when no record carries a non-empty `last_modified`, and also when some
non-empty `last_modified` does not parse (whatever the other records hold). -/
theorem newest_record_date (p : String → Option Int) (now : Int) (fetched : Obj (List Record)) :
    ((lastModifiedValues fetched ≠ [] ∧ ∀ v ∈ lastModifiedValues fetched, p v ≠ none) →
      (∃ v ∈ lastModifiedValues fetched, p v = some (getNewestRecordDate p now fetched)) ∧
        ∀ v ∈ lastModifiedValues fetched, ∀ t, p v = some t →
          t ≤ getNewestRecordDate p now fetched) ∧
    ((lastModifiedValues fetched = [] ∨ ∃ v ∈ lastModifiedValues fetched, p v = none) →
      getNewestRecordDate p now fetched = now) := by
  constructor
  · rintro ⟨hne, hall⟩
    exact getNewestRecordDate_of_parsed p now fetched hne hall
  · intro h
    exact getNewestRecordDate_of_unparsed p now fetched h

/-- Both cases of `newest_record_date` at sample data: with two dated
records the result is one of the parsed timestamps and bounds them all; with
a dated and an undated record it is the current time. -/
theorem newest_record_date_witness :
    ((∃ v ∈ lastModifiedValues datedFetch,
          sampleParse v = some (getNewestRecordDate sampleParse 1600000000000 datedFetch)) ∧
        ∀ v ∈ lastModifiedValues datedFetch, ∀ t, sampleParse v = some t →
          t ≤ getNewestRecordDate sampleParse 1600000000000 datedFetch) ∧
      getNewestRecordDate sampleParse 1600000000000 mixedFetch = 1600000000000 :=
  ⟨(newest_record_date sampleParse 1600000000000 datedFetch).1 ⟨by decide, by decide⟩,
    (newest_record_date sampleParse 1600000000000 mixedFetch).2
      (Or.inr ⟨"soon", by decide, by decide⟩)⟩

/-- C6 as stated fails: in `mixedFetch` the record `rec1` yields the parseable
timestamp 1577836800000, yet the other record's unparseable `last_modified`
makes the result the current time, not that maximum. -/
theorem newest_record_date_not_max :
    sampleParse "2020-01-01T00:00:00.000Z" = some 1577836800000 ∧
      lastModifiedValues mixedFetch = ["2020-01-01T00:00:00.000Z", "soon"] ∧
      sampleParse "soon" = none ∧
      getNewestRecordDate sampleParse 1600000000000 mixedFetch = 1600000000000 ∧
      getNewestRecordDate sampleParse 1600000000000 mixedFetch ≠ 1577836800000 := by
  decide

/-! ## The fetch phase leaves cursor and snapshot alone -/

theorem pageTaskSuccess_frame (cfg : Config) (s : State) (task : PageTask)
    (records : List Record) (offset : Option String) :
    (pageTaskSuccess cfg s task records offset).fromDate = s.fromDate ∧
      (pageTaskSuccess cfg s task records offset).previousFetch = s.previousFetch := by
  unfold pageTaskSuccess
  cases offset with
  | none => exact ⟨rfl, rfl⟩
  | some next =>
    by_cases h : next = ""
    · simp [h]
    · simp [h]

theorem pageTaskCatch_frame (s : State) (task : PageTask) (err : RequestError) (now : Int) :
    (∀ e s1, pageTaskCatch s task err now = .throws e s1 →
        s1.fromDate = s.fromDate ∧ s1.previousFetch = s.previousFetch) ∧
      (∀ s1, pageTaskCatch s task err now = .waits s1 →
        s1.fromDate = s.fromDate ∧ s1.previousFetch = s.previousFetch) := by
  unfold pageTaskCatch
  cases err.response with
  | none =>
    refine ⟨?_, ?_⟩
    · intro e s1 h
      simp only [CatchResult.throws.injEq] at h
      rw [← h.2]; exact ⟨rfl, rfl⟩
    · intro s1 h; simp at h
  | some response =>
    by_cases hc : response.statusCode = 429
    · refine ⟨?_, ?_⟩
      · intro e s1 h; simp [hc] at h
      · intro s1 h
        simp only [hc, ne_eq, not_true_eq_false, ↓reduceIte, CatchResult.waits.injEq] at h
        rw [← h]; exact ⟨rfl, rfl⟩
    · refine ⟨?_, ?_⟩
      · intro e s1 h
        simp only [ne_eq, hc, not_false_eq_true, ↓reduceIte, CatchResult.throws.injEq] at h
        rw [← h.2]; exact ⟨rfl, rfl⟩
      · intro s1 h; simp [hc] at h

theorem FetchStep_frame (cfg : Config) (s s1 : State) (h : FetchStep cfg s s1) :
    s1.fromDate = s.fromDate ∧ s1.previousFetch = s.previousFetch := by
  cases h with
  | started => exact ⟨rfl, rfl⟩
  | answered task records offset => exact pageTaskSuccess_frame cfg s task records offset
  | threw task err now e _ hthrow => exact (pageTaskCatch_frame s task err now).1 e s1 hthrow
  | paused task err now _ hwait => exact (pageTaskCatch_frame s task err now).2 s1 hwait
  | resumed task now => exact ⟨rfl, rfl⟩
  | resetAsked now => exact ⟨rfl, rfl⟩

theorem FetchReach_frame (cfg : Config) (s0 s : State) (h : FetchReach cfg s0 s) :
    s.fromDate = s0.fromDate ∧ s.previousFetch = s0.previousFetch := by
  induction h with
  | refl => exact ⟨rfl, rfl⟩
  | tail _ hstep ih =>
    obtain ⟨a, b⟩ := FetchStep_frame cfg _ _ hstep
    exact ⟨a.trans ih.1, b.trans ih.2⟩

theorem fetchBaseFinish_fromDate (cfg : Config) (p : String → Option Int) (s : State)
    (now : Int) :
    (fetchBaseFinish cfg p s now).state.fromDate =
      some (getNewestRecordDate p now s.currentFetch) := by
  unfold fetchBaseFinish
  simp only []
  split
  · split <;> rfl
  · rfl

/-! ## The cursor across a cycle -/

/-- C7, as the code has it: for a cycle that starts with cursor `c`, no reset
requested, and completes its fetch phase in any state `s` the phase can reach,
the cursor after the cycle is `getNewestRecordDate` of the cycle result (the
cursor before plays no part in it); it is at least `c` when the current time
is at least `c` and every parseable `last_modified` among the fetched records
is at least `c`. -/
theorem cursor_after_cycle (cfg : Config) (p : String → Option Int) (s0 s : State)
    (start now c : Int) (hc : s0.fromDate = some c) (hr : s0.resetRequested = false)
    (hreach : FetchReach cfg (fetchBaseStart cfg s0 start) s) :
    s.fromDate = some c ∧
      (fetchBaseFinish cfg p s now).state.fromDate =
        some (getNewestRecordDate p now s.currentFetch) ∧
      (c ≤ now → (∀ v ∈ lastModifiedValues s.currentFetch, ∀ t, p v = some t → c ≤ t) →
        c ≤ getNewestRecordDate p now s.currentFetch) := by
  have hstart : (fetchBaseStart cfg s0 start).fromDate = some c := by
    simp [fetchBaseStart, setStatus, setStatusWrite, setStatusDone, hr, hc]
  refine ⟨(FetchReach_frame cfg _ _ hreach).1.trans hstart, fetchBaseFinish_fromDate cfg p s now, ?_⟩
  intro hnow hall
  by_cases h : lastModifiedValues s.currentFetch = [] ∨
      ∃ v ∈ lastModifiedValues s.currentFetch, p v = none
  · rw [getNewestRecordDate_of_unparsed p now s.currentFetch h]; exact hnow
  · have h1 : lastModifiedValues s.currentFetch ≠ [] := fun e => h (Or.inl e)
    have h2 : ∀ v ∈ lastModifiedValues s.currentFetch, p v ≠ none :=
      fun v hv e => h (Or.inr ⟨v, hv, e⟩)
    obtain ⟨⟨v, hv, hp⟩, _⟩ := getNewestRecordDate_of_parsed p now s.currentFetch h1 h2
    exact hall v hv _ hp

theorem freshCycle_reach :
    FetchReach sampleConfig (fetchBaseStart sampleConfig restoredState 1600000000000)
      freshCycle :=
  Relation.ReflTransGen.single (FetchStep.answered _ sampleTask _ none)

/-- The theorem `cursor_after_cycle` at `freshCycle`: the cursor 2020-01-01
stays where it is when the one fetched record was modified at that instant. -/
theorem cursor_after_cycle_witness :
    restoredState.fromDate = some 1577836800000 ∧ restoredState.resetRequested = false ∧
      (fetchBaseFinish sampleConfig sampleParse freshCycle 1600000000000).state.fromDate =
        some (getNewestRecordDate sampleParse 1600000000000 freshCycle.currentFetch) ∧
      (1577836800000 : Int) ≤
        getNewestRecordDate sampleParse 1600000000000 freshCycle.currentFetch :=
  have h := cursor_after_cycle sampleConfig sampleParse restoredState freshCycle
    1600000000000 1600000000000 1577836800000 (by decide) (by decide) freshCycle_reach
  ⟨by decide, by decide, h.2.1, h.2.2 (by decide) (by decide)⟩

/-- C7 as stated fails: the restored instance starts a cycle with the cursor
at 2020-01-01 (1577836800000) and no reset requested; the transport answers
with a record last modified on 2019-01-01; after the cycle the cursor is
1546300800000, earlier than before. -/
theorem cursor_regresses :
    restoredState.fromDate = some 1577836800000 ∧ restoredState.resetRequested = false ∧
      (fetchBaseStart sampleConfig restoredState 1600000000000).fromDate = some 1577836800000 ∧
      (fetchBaseFinish sampleConfig sampleParse staleCycle 1600000000000).state.fromDate =
        some 1546300800000 ∧
      (fetchBaseFinish sampleConfig sampleParse staleCycle 1600000000000).state.status = .idle ∧
      (1546300800000 : Int) < 1577836800000 := by
  decide

/-! ## Failure of a page task -/

/-- C9: a page task whose request fails is rejected exactly when the failure
has no response or its status code is not 429. Without a response the
original error is thrown unchanged and the state is untouched; with a status
code other than 429 the queue is cleared and a new error is thrown whose
message is built from the table name, the page number, the status code and
the body text, with the original error attached; with status code 429 the
first segment records a `ratelimited` status (resuming at now plus the delay)
and pauses the queue, the segment after the delay, from whatever state it
finds, queues the same task again, records `fetching` and restarts the queue,
and the task resolves. -/
theorem page_task_failure (cfg : Config) (s : State) (task : PageTask) (err : RequestError)
    (now later : Int) :
    ((∃ e s1, pageTask cfg s task (.fails err) now later = .rejected e s1) ↔
        (err.response = none ∨ ∃ r, err.response = some r ∧ r.statusCode ≠ 429)) ∧
      (err.response = none →
        pageTask cfg s task (.fails err) now later = .rejected (.request err) s) ∧
      (∀ r, err.response = some r → r.statusCode ≠ 429 →
        pageTask cfg s task (.fails err) now later =
            .rejected (.combined (failureMessage task r) err) { s with queue := [] } ∧
          ∀ text, r.body = some text →
            failureMessage task r = "Table " ++ task.tableName ++ " page " ++ toString task.page ++
              ": Failure (status " ++ toString r.statusCode ++ ": " ++ text ++ ").") ∧
      (∀ r, err.response = some r → r.statusCode = 429 →
        pageTaskCatch s task err now =
            .waits { setStatus s (.ratelimited (now + 30000)) now id with paused := true } ∧
          (∀ s2 : State,
            (pageTaskResume s2 task later).log =
                { uid := some s2.uid, time := later, val := .fetching, repeatCount := none } ::
                  s2.log ∧
              (pageTaskResume s2 task later).queue = s2.queue ++ [task] ∧
              (pageTaskResume s2 task later).paused = false) ∧
          ∃ s3, pageTask cfg s task (.fails err) now later = .resolved s3 ∧
            s3.log =
              { uid := some (s.uid + 1), time := later, val := .fetching, repeatCount := none } ::
              { uid := some s.uid, time := now, val := .ratelimited (now + 30000),
                repeatCount := none } :: s.log ∧
            s3.queue = s.queue ++ [task] ∧ s3.currentFetch = s.currentFetch) := by
  refine ⟨?_, ?_, ?_, ?_⟩
  · cases hr : err.response with
    | none => simp [pageTask, pageTaskCatch, hr]
    | some r =>
      by_cases hc : r.statusCode = 429
      · simp [pageTask, pageTaskCatch, hr, hc]
      · simp [pageTask, pageTaskCatch, hr, hc]
  · intro hr
    simp [pageTask, pageTaskCatch, hr]
  · intro r hr hc
    refine ⟨by simp [pageTask, pageTaskCatch, hr, hc], ?_⟩
    intro text hb
    simp [failureMessage, hb]
  · intro r hr hc
    refine ⟨by simp [pageTaskCatch, hr, hc, RATE_LIMIT_DELAY], ?_, ?_⟩
    · intro s2
      exact ⟨rfl, rfl, rfl⟩
    · refine ⟨pageTaskResume
        { setStatus s (.ratelimited (now + RATE_LIMIT_DELAY)) now id with paused := true } task later,
        by simp only [pageTask, pageTaskCatch, hr, hc, ne_eq, not_true_eq_false, ↓reduceIte],
        ?_, rfl, rfl⟩
      simp [pageTaskResume, setStatus, setStatusWrite, setStatusDone, RATE_LIMIT_DELAY]

/-- The theorem `page_task_failure` at three failures of the first page task
on a fresh instance: no response, status 500 and status 429. -/
theorem page_task_failure_witness :
    pageTask sampleConfig (construct none 0) sampleTask (.fails networkFailure) 5 30005 =
        .rejected (.request networkFailure) (construct none 0) ∧
      pageTask sampleConfig (construct none 0) sampleTask (.fails (httpFailure 500)) 5 30005 =
        .rejected (.combined "Table widgets page 1: Failure (status 500: \"busy\")."
          (httpFailure 500)) (construct none 0) ∧
      (∃ s3, pageTask sampleConfig (construct none 0) sampleTask (.fails (httpFailure 429))
          5 30005 = .resolved s3 ∧
        s3.log.map (·.val) = [.fetching, .ratelimited 30005, .ready] ∧
        s3.queue = [sampleTask]) := by
  have h := page_task_failure sampleConfig (construct none 0) sampleTask
  refine ⟨(h networkFailure 5 30005).2.1 rfl, ?_, ?_⟩
  · have h5 := ((h (httpFailure 500) 5 30005).2.2.1 _ rfl (by decide)).1
    rw [h5]
    decide
  · obtain ⟨s3, h1, h2, h3, _⟩ := ((h (httpFailure 429) 5 30005).2.2.2 _ rfl (by decide)).2.2
    exact ⟨s3, h1, by rw [h2]; decide, by rw [h3]; rfl⟩

/-! ## Reading collapsedLog twice -/

/-- C10, evaluated on the code: in `twoErrorsLog` the two `errored` entries
are adjacent after filtering. The first read of `collapsedLog` returns three
entries, the `errored` one with `repeatCount` 1, and writes that count into
the log entry itself; a second read, with no event recorded in between,
returns the `errored` entry with `repeatCount` 2 and leaves 2 in the log. -/
theorem collapsedLog_second_read :
    (collapsedLog twoErrorsLog).map (fun first => first.entries.map (·.repeatCount)) =
        some [none, some 1, none] ∧
      ((collapsedLog twoErrorsLog).bind (fun first => collapsedLog first.log)).map
          (fun second => second.entries.map (·.repeatCount)) =
        some [none, some 2, none] ∧
      (collapsedLog twoErrorsLog).map (fun first => first.log[1]?.bind (·.repeatCount)) =
        some (some 1) ∧
      ((collapsedLog twoErrorsLog).bind (fun first => collapsedLog first.log)).map
          (fun second => second.log[1]?.bind (·.repeatCount)) =
        some (some 2) ∧
      ((collapsedLog twoErrorsLog).bind (fun first => collapsedLog first.log)).map
          (fun second => second.entries.map (·.val)) =
        (collapsedLog twoErrorsLog).map (fun first => first.entries.map (·.val)) := by
  decide

/-! ## Objects and findIndex -/

theorem Obj.get_set {α : Type} (o : Obj α) (k t : String) (v : α) :
    (o.set k v).get t = if k = t then some v else o.get t := by
  induction o with
  | nil => simp [Obj.set, Obj.get]
  | cons e rest ih =>
    obtain ⟨k', v'⟩ := e
    by_cases h : k' = k
    · subst h
      by_cases h2 : k' = t
      · simp [Obj.set, Obj.get, h2]
      · simp [Obj.set, Obj.get, h2]
    · by_cases h2 : k' = t
      · subst h2
        have : ¬ k = k' := fun e => h e.symm
        simp [Obj.set, Obj.get, h, this]
      · simp [Obj.set, Obj.get, h, h2, ih]

theorem tableOf_set (o : Obj (List Record)) (k t : String) (v : List Record) :
    tableOf (o.set k v) t = if k = t then v else tableOf o t := by
  unfold tableOf
  rw [Obj.get_set]
  split <;> rfl

theorem findIndex_none {α : Type} (p : α → Bool) (l : List α) :
    findIndex p l = none ↔ ∀ x ∈ l, p x = false := by
  induction l with
  | nil => simp [findIndex]
  | cons x xs ih =>
    by_cases h : p x = true
    · simp [findIndex, h]
    · simp only [Bool.not_eq_true] at h
      simp [findIndex, h, ih]

theorem findIndex_some {α : Type} (p : α → Bool) (l : List α) : ∀ k : Nat,
    findIndex p l = some k → ∃ e, l[k]? = some e ∧ p e = true := by
  induction l with
  | nil => intro k h; simp [findIndex] at h
  | cons x xs ih =>
    intro k h
    by_cases hx : p x = true
    · simp only [findIndex, hx, ↓reduceIte, Option.some.injEq] at h
      subst h
      exact ⟨x, by simp, hx⟩
    · simp only [findIndex, hx, Bool.false_eq_true, ↓reduceIte, Option.map_eq_some'] at h
      obtain ⟨j, hj, rfl⟩ := h
      obtain ⟨e, he, hp⟩ := ih j hj
      exact ⟨e, by simpa using he, hp⟩

/-- Position of an id: `findIndex` by id sees only the ids. -/
theorem findIndex_id_congr (l l' : List Record) (x : String) (h : ids l = ids l') :
    findIndex (fun e => e.id == x) l = findIndex (fun e => e.id == x) l' := by
  induction l generalizing l' with
  | nil =>
    cases l' with
    | nil => rfl
    | cons y ys => simp [ids] at h
  | cons y ys ih =>
    cases l' with
    | nil => simp [ids] at h
    | cons z zs =>
      simp only [ids, List.map_cons, List.cons.injEq] at h
      simp only [findIndex, h.1]
      rw [ih zs h.2]

theorem findIndex_append_of_mem (l extra : List Record) (x : String) (h : x ∈ ids l) :
    findIndex (fun e => e.id == x) (l ++ extra) = findIndex (fun e => e.id == x) l := by
  induction l with
  | nil => simp [ids] at h
  | cons y ys ih =>
    by_cases hy : y.id = x
    · simp [findIndex, hy]
    · have hx : x ∈ ids ys := by
        simp only [ids, List.map_cons, List.mem_cons] at h
        rcases h with h | h
        · exact absurd h.symm hy
        · exact h
      simp [findIndex, hy, ih hx]

/-! ## One merge step on one sequence -/

theorem upsert_found (l : List Record) (r : Record) (k : Nat)
    (h : findIndex (fun e => e.id == r.id) l = some k) : upsert l r = l.set k r := by
  simp [upsert, h]

theorem upsert_missing (l : List Record) (r : Record)
    (h : findIndex (fun e => e.id == r.id) l = none) : upsert l r = l ++ [r] := by
  simp [upsert, h]

theorem findIndex_isSome_iff (l : List Record) (x : String) :
    (findIndex (fun e => e.id == x) l ≠ none) ↔ x ∈ ids l := by
  rw [ne_eq, findIndex_none]
  simp only [ids, List.mem_map]
  constructor
  · intro h
    by_contra hcon
    apply h
    intro e he
    by_contra hne
    simp only [beq_eq_false_iff_ne, ne_eq, not_not] at hne
    exact hcon ⟨e, he, hne⟩
  · rintro ⟨e, he, rfl⟩ h
    have := h e he
    simp at this

theorem ids_upsert (l : List Record) (r : Record) :
    ids (upsert l r) = if r.id ∈ ids l then ids l else ids l ++ [r.id] := by
  cases h : findIndex (fun e => e.id == r.id) l with
  | none =>
    have hn : r.id ∉ ids l := fun hm => (findIndex_isSome_iff l r.id).mpr hm h
    rw [upsert_missing l r h, if_neg hn]
    simp [ids]
  | some k =>
    have hm : r.id ∈ ids l := (findIndex_isSome_iff l r.id).mp (by rw [h]; simp)
    obtain ⟨e, he, hp⟩ := findIndex_some _ l k h
    rw [upsert_found l r k h, if_pos hm]
    have hid : e.id = r.id := by simpa using hp
    apply List.ext_getElem?
    intro j
    simp only [ids, List.getElem?_map, List.getElem?_set]
    by_cases hj : k = j
    · subst hj
      have hk : k < l.length := by
        rcases Nat.lt_or_ge k l.length with hlt | hge
        · exact hlt
        · rw [List.getElem?_eq_none hge] at he; simp at he
      simp [hk, he, hid]
    · simp [hj]

theorem length_upsert (l : List Record) (r : Record) :
    (upsert l r).length = l.length + if r.id ∈ ids l then 0 else 1 := by
  have h := congrArg List.length (ids_upsert l r)
  rw [ids, List.length_map] at h
  rw [h]
  split <;> simp [ids]

theorem mem_upsert (l : List Record) (r x : Record) (h : x ∈ upsert l r) : x ∈ l ∨ x = r := by
  unfold upsert at h
  split at h
  · rcases List.mem_or_eq_of_mem_set h with h | h
    · exact Or.inl h
    · exact Or.inr h
  · rcases List.mem_append.mp h with h | h
    · exact Or.inl h
    · exact Or.inr (by simpa using h)

theorem mem_foldl_upsert (recs : List Record) : ∀ (l : List Record) (x : Record),
    x ∈ recs.foldl upsert l → x ∈ l ∨ x ∈ recs := by
  induction recs with
  | nil => intro l x h; exact Or.inl h
  | cons r rs ih =>
    intro l x h
    rcases ih _ x h with h1 | h1
    · rcases mem_upsert l r x h1 with h2 | h2
      · exact Or.inl h2
      · exact Or.inr (h2 ▸ List.mem_cons_self _ _)
    · exact Or.inr (List.mem_cons_of_mem _ h1)

theorem nodup_ids_upsert (l : List Record) (r : Record) (h : (ids l).Nodup) :
    (ids (upsert l r)).Nodup := by
  rw [ids_upsert]
  split
  · exact h
  · rename_i hn
    exact List.Nodup.append h (List.nodup_singleton _) (by simpa using hn)

theorem nodup_ids_foldl_upsert (recs : List Record) : ∀ l : List Record,
    (ids l).Nodup → (ids (recs.foldl upsert l)).Nodup := by
  induction recs with
  | nil => intro l h; exact h
  | cons r rs ih => intro l h; exact ih _ (nodup_ids_upsert l r h)

/-! ## The merge loops, table by table -/

theorem tableOf_mergeRecord (t t' : String) (st : MergeState) (r : Record) :
    tableOf (mergeRecord t st r).previousFetch t' =
      if t = t' then upsert (tableOf st.previousFetch t) r else tableOf st.previousFetch t' := by
  unfold mergeRecord upsert
  simp only []
  split <;> simp [tableOf_set]

theorem tableOf_foldl_mergeRecord (t t' : String) (recs : List Record) : ∀ st : MergeState,
    tableOf (recs.foldl (mergeRecord t) st).previousFetch t' =
      if t = t' then recs.foldl upsert (tableOf st.previousFetch t)
      else tableOf st.previousFetch t' := by
  induction recs with
  | nil =>
    intro st
    by_cases h : t = t'
    · simp [h]
    · simp [h]
  | cons r rs ih =>
    intro st
    simp only [List.foldl_cons]
    rw [ih, tableOf_mergeRecord, tableOf_mergeRecord]
    by_cases h : t = t'
    · simp [h]
    · simp [h]

theorem tableOf_mergeTable (t' : String) (st : MergeState) (entry : String × List Record) :
    tableOf (mergeTable st entry).previousFetch t' =
      if entry.1 = t' then entry.2.foldl upsert (tableOf st.previousFetch entry.1)
      else tableOf st.previousFetch t' := by
  unfold mergeTable
  simp only []
  rw [tableOf_foldl_mergeRecord]
  cases hg : st.previousFetch.get entry.1 with
  | some v => simp
  | none =>
    simp only [tableOf_set, if_pos]
    have h0 : tableOf st.previousFetch entry.1 = [] := by simp [tableOf, hg]
    by_cases h : entry.1 = t'
    · rw [h] at h0
      simp [h, h0]
    · simp [h]

theorem fetchedFor_cons (entry : String × List Record) (cur : Obj (List Record)) (t : String) :
    fetchedFor (entry :: cur) t =
      if entry.1 = t then entry.2 ++ fetchedFor cur t else fetchedFor cur t := by
  by_cases h : entry.1 = t
  · simp [fetchedFor, List.filter_cons, h]
  · simp [fetchedFor, List.filter_cons, h]

theorem tableOf_foldl_mergeTable (t : String) (cur : Obj (List Record)) : ∀ st : MergeState,
    tableOf (cur.foldl mergeTable st).previousFetch t =
      (fetchedFor cur t).foldl upsert (tableOf st.previousFetch t) := by
  induction cur with
  | nil => intro st; simp [fetchedFor]
  | cons entry rest ih =>
    intro st
    simp only [List.foldl_cons]
    rw [ih, tableOf_mergeTable, fetchedFor_cons]
    by_cases h : entry.1 = t
    · simp [h, List.foldl_append]
    · simp [h]

/-- What the merge leaves under one key: the fetched records of that key
folded into the old sequence, one `upsert` per record. -/
theorem tableOf_mergeCycle (prev cur : Obj (List Record)) (t : String) :
    tableOf (mergeCycle prev cur).previousFetch t =
      (fetchedFor cur t).foldl upsert (tableOf prev t) :=
  tableOf_foldl_mergeTable t cur _

/-- For an object, whose keys are distinct, `fetchedFor` reads the key. -/
theorem fetchedFor_eq_tableOf (cur : Obj (List Record)) (t : String)
    (h : (cur.map (·.1)).Nodup) : fetchedFor cur t = tableOf cur t := by
  induction cur with
  | nil => rfl
  | cons entry rest ih =>
    obtain ⟨k, v⟩ := entry
    simp only [List.map_cons, List.nodup_cons] at h
    rw [fetchedFor_cons]
    by_cases hk : k = t
    · subst hk
      have hnone : fetchedFor rest k = [] := by
        simp only [fetchedFor, List.flatten_eq_nil_iff, List.mem_map, List.mem_filter]
        rintro l ⟨e, ⟨he, hek⟩, _⟩
        exact absurd (List.mem_map.mpr ⟨e, he, by simpa using hek⟩) h.1
      simp [hnone, tableOf, Obj.get]
    · simp [hk, ih h.2, tableOf, Obj.get]

/-! ## No duplicate ids -/

/-- C1: if no sequence of the snapshot holds two records with the same id,
then after the merge of any cycle result (ids may repeat in it) no sequence
of the snapshot holds two records with the same id. -/
theorem merge_keeps_ids_distinct (prev cur : Obj (List Record))
    (h : ∀ t, (ids (tableOf prev t)).Nodup) :
    ∀ t, (ids (tableOf (mergeCycle prev cur).previousFetch t)).Nodup := by
  intro t
  rw [tableOf_mergeCycle]
  exact nodup_ids_foldl_upsert _ _ (h t)

/-- The theorem `merge_keeps_ids_distinct` at the sample data, where the
cycle result holds `rec2` twice. -/
theorem merge_keeps_ids_distinct_witness :
    ids (tableOf (mergeCycle sampleSnapshot sampleCycle).previousFetch "widgets") =
        ["rec1", "rec2", "rec3", "rec4"] ∧
      (ids (tableOf (mergeCycle sampleSnapshot sampleCycle).previousFetch "widgets")).Nodup :=
  ⟨by decide, merge_keeps_ids_distinct sampleSnapshot sampleCycle (by
    intro t
    by_cases h : "widgets" = t
    · subst h; decide
    · simp [sampleSnapshot, tableOf, Obj.get, h, ids]) "widgets"⟩

/-! ## Replacement in place -/

theorem getElem?_upsert (l : List Record) (r e : Record) (k : Nat) (h : l[k]? = some e) :
    (upsert l r)[k]? =
      some (if findIndex (fun x => x.id == r.id) l = some k then r else e) := by
  have hk : k < l.length := by
    rcases Nat.lt_or_ge k l.length with hlt | hge
    · exact hlt
    · rw [List.getElem?_eq_none hge] at h; simp at h
  cases hf : findIndex (fun x => x.id == r.id) l with
  | none =>
    rw [upsert_missing l r hf, List.getElem?_append_left hk, h]
    simp
  | some j =>
    rw [upsert_found l r j hf, List.getElem?_set]
    by_cases hj : j = k
    · simp [hj, hk]
    · simp [hj, h]

theorem findIndex_upsert (l : List Record) (r : Record) (x : String) (h : x ∈ ids l) :
    findIndex (fun e => e.id == x) (upsert l r) = findIndex (fun e => e.id == x) l := by
  by_cases hr : r.id ∈ ids l
  · apply findIndex_id_congr
    rw [ids_upsert, if_pos hr]
  · have hu : ids (upsert l r) = ids (l ++ [r]) := by
      rw [ids_upsert, if_neg hr]; simp [ids]
    rw [findIndex_id_congr _ _ x hu]
    exact findIndex_append_of_mem l [r] x h

theorem getLast?_cons_getD {α : Type} (a d : α) (l : List α) :
    ((a :: l).getLast?).getD d = (l.getLast?).getD a := by
  cases l with
  | nil => rfl
  | cons b bs =>
    rw [List.getLast?_cons_cons]
    cases h : (b :: bs).getLast? with
    | none => simp at h
    | some x => rfl

/-- The entry at an old position after merging `recs`: at the first position
of its id it is the last fetched record with that id, if any; elsewhere it is
the old entry. -/
theorem getElem?_foldl_upsert (recs : List Record) : ∀ (l : List Record) (k : Nat) (e : Record),
    l[k]? = some e →
    (recs.foldl upsert l)[k]? =
      some (if findIndex (fun x => x.id == e.id) l = some k then
          ((recs.filter (fun x => x.id == e.id)).getLast?).getD e
        else e) := by
  induction recs with
  | nil => intro l k e h; simp [h]
  | cons r rs ih =>
    intro l k e h
    have hmem : e.id ∈ ids l := by
      simp only [ids, List.mem_map]
      exact ⟨e, List.getElem?_mem h, rfl⟩
    simp only [List.foldl_cons]
    have h1 := getElem?_upsert l r e k h
    by_cases hrk : findIndex (fun x => x.id == r.id) l = some k
    · -- the record replaces position k
      obtain ⟨e', he', hp⟩ := findIndex_some _ l k hrk
      have hee : e' = e := by rw [h] at he'; exact (Option.some.inj he').symm
      have hid : e.id = r.id := by rw [← hee]; simpa using hp
      rw [if_pos hrk] at h1
      rw [ih _ k r h1, findIndex_upsert l r r.id (hid ▸ hmem), hid, if_pos hrk, if_pos hrk]
      rw [List.filter_cons]
      simp only [beq_self_eq_true, ↓reduceIte]
      rw [getLast?_cons_getD]
    · rw [if_neg hrk] at h1
      rw [ih _ k e h1, findIndex_upsert l r e.id hmem]
      by_cases hek : findIndex (fun x => x.id == e.id) l = some k
      · have hne : ¬ r.id = e.id := fun heq => hrk (heq ▸ hek)
        rw [if_pos hek, if_pos hek, List.filter_cons]
        simp [hne]
      · rw [if_neg hek, if_neg hek]

theorem length_foldl_upsert_le (recs : List Record) : ∀ l : List Record,
    l.length ≤ (recs.foldl upsert l).length := by
  induction recs with
  | nil => intro l; exact le_refl _
  | cons r rs ih =>
    intro l
    exact le_trans (by rw [length_upsert]; omega) (ih _)

theorem ids_foldl_upsert_of_mem (recs : List Record) : ∀ l : List Record,
    (∀ r ∈ recs, r.id ∈ ids l) → ids (recs.foldl upsert l) = ids l := by
  induction recs with
  | nil => intro l _; rfl
  | cons r rs ih =>
    intro l h
    have hr : r.id ∈ ids l := h r (List.mem_cons_self _ _)
    have hu : ids (upsert l r) = ids l := by rw [ids_upsert, if_pos hr]
    simp only [List.foldl_cons]
    rw [ih (upsert l r) (fun x hx => hu ▸ h x (List.mem_cons_of_mem _ hx)), hu]

/-! ## Counting created and updated records -/

/-- Distinct new elements of `A ++ B`: those of `A`, and those of `B` that are
new also with respect to `A`. -/
theorem newCount_append {α : Type} [DecidableEq α] (S : α → Bool) (A B : List α)
    [∀ x, Decidable (x ∈ A)] :
    ((A ++ B).dedup.filter (fun x => !S x)).length =
      (A.dedup.filter (fun x => !S x)).length +
        (B.dedup.filter (fun x => !(S x || decide (x ∈ A)))).length := by
  have key : ∀ (L : List α) (P : α → Bool),
      (L.dedup.filter P).length = (L.toFinset.filter (fun x => P x = true)).card := by
    intro L P
    rw [← List.toFinset_card_of_nodup ((List.nodup_dedup L).filter _)]
    congr 1
    ext x
    simp
  rw [key, key, key, ← Finset.card_union_of_disjoint]
  · congr 1
    ext x
    simp only [List.toFinset_append, Finset.mem_filter, Finset.mem_union, List.mem_toFinset,
      Bool.not_eq_true', Bool.or_eq_false_iff, decide_eq_false_iff_not]
    tauto
  · rw [Finset.disjoint_left]
    intro x hx hx'
    simp only [Finset.mem_filter, List.mem_toFinset, Bool.not_eq_true', Bool.or_eq_false_iff,
      decide_eq_false_iff_not] at hx hx'
    tauto

theorem newCount_congr {α : Type} [DecidableEq α] (S S' : α → Bool) (L : List α)
    (h : ∀ x, S x = S' x) :
    (L.dedup.filter (fun x => !S x)).length = (L.dedup.filter (fun x => !S' x)).length := by
  have : (fun x => !S x) = (fun x => !S' x) := by funext x; rw [h x]
  rw [this]

theorem newCount_cons {α : Type} [DecidableEq α] (S : α → Bool) (a : α) (B : List α) :
    ((a :: B).dedup.filter (fun x => !S x)).length =
      (if S a = true then 0 else 1) +
        (B.dedup.filter (fun x => !(S x || decide (x = a)))).length := by
  have h := newCount_append S [a] B
  simp only [List.singleton_append, List.mem_singleton] at h
  rw [h]
  congr 1
  by_cases ha : S a = true
  · simp [ha]
  · simp [ha]

theorem hasId_iff (o : Obj (List Record)) (q : String × String) :
    hasId o q = true ↔ q.2 ∈ ids (tableOf o q.1) := by
  simp only [hasId, List.any_eq_true, beq_iff_eq, ids, List.mem_map]

theorem findIndex_of_hasId (o : Obj (List Record)) (t : String) (r : Record) :
    (findIndex (fun e => e.id == r.id) (tableOf o t) = none) ↔ hasId o (t, r.id) = false := by
  rw [← Bool.not_eq_true, hasId_iff, ← findIndex_isSome_iff]
  simp

theorem totalRecords_set (o : Obj (List Record)) (k : String) (v : List Record) :
    totalRecords (o.set k v) + (tableOf o k).length = totalRecords o + v.length := by
  induction o with
  | nil => simp [Obj.set, totalRecords, tableOf, Obj.get]
  | cons e rest ih =>
    obtain ⟨k', v'⟩ := e
    by_cases h : k' = k
    · simp [Obj.set, totalRecords, tableOf, Obj.get, h]; omega
    · have ih' := ih
      simp only [totalRecords, tableOf] at ih'
      simp only [Obj.set, h, ↓reduceIte, totalRecords, List.map_cons, List.sum_cons, tableOf,
        Obj.get]
      omega

theorem mergeRecord_counts (t : String) (st : MergeState) (r : Record) :
    (mergeRecord t st r).createdCount =
        st.createdCount + (if hasId st.previousFetch (t, r.id) = true then 0 else 1) ∧
      (mergeRecord t st r).createdCount + (mergeRecord t st r).updatedCount =
        st.createdCount + st.updatedCount + 1 ∧
      totalRecords (mergeRecord t st r).previousFetch + st.createdCount =
        totalRecords st.previousFetch + (mergeRecord t st r).createdCount := by
  cases hf : findIndex (fun e => e.id == r.id) (tableOf st.previousFetch t) with
  | none =>
    have hh : hasId st.previousFetch (t, r.id) = false := (findIndex_of_hasId _ t r).mp hf
    have hset := totalRecords_set st.previousFetch t (tableOf st.previousFetch t ++ [r])
    simp only [List.length_append, List.length_singleton] at hset
    simp only [mergeRecord, hf, hh]
    refine ⟨by simp, by omega, by omega⟩
  | some k =>
    have hh : hasId st.previousFetch (t, r.id) = true := by
      by_contra hcon
      rw [Bool.not_eq_true, ← findIndex_of_hasId, hf] at hcon
      simp at hcon
    have hset := totalRecords_set st.previousFetch t ((tableOf st.previousFetch t).set k r)
    simp only [List.length_set] at hset
    simp only [mergeRecord, hf, hh]
    refine ⟨by simp, by omega, by omega⟩

theorem hasId_mergeRecord (t : String) (st : MergeState) (r : Record) (q : String × String) :
    hasId (mergeRecord t st r).previousFetch q =
      (hasId st.previousFetch q || decide (q = (t, r.id))) := by
  rw [Bool.eq_iff_iff, hasId_iff, tableOf_mergeRecord]
  obtain ⟨qt, qi⟩ := q
  simp only [Bool.or_eq_true, hasId_iff, decide_eq_true_eq, Prod.mk.injEq]
  by_cases h : t = qt
  · subst h
    rw [if_pos rfl, ids_upsert]
    split
    · rename_i hm
      constructor
      · intro hq; exact Or.inl hq
      · rintro (hq | ⟨_, hq⟩)
        · exact hq
        · rw [hq]; exact hm
    · simp only [List.mem_append, List.mem_singleton, true_and]
  · rw [if_neg h]
    constructor
    · intro hq; exact Or.inl hq
    · rintro (hq | ⟨hq, _⟩)
      · exact hq
      · exact absurd hq.symm h

theorem foldl_mergeRecord_counts (t : String) (recs : List Record) : ∀ st : MergeState,
    (recs.foldl (mergeRecord t) st).createdCount =
        st.createdCount +
          ((recs.map (fun r => (t, r.id))).dedup.filter
            (fun q => !hasId st.previousFetch q)).length ∧
      (recs.foldl (mergeRecord t) st).createdCount + (recs.foldl (mergeRecord t) st).updatedCount =
        st.createdCount + st.updatedCount + recs.length ∧
      totalRecords (recs.foldl (mergeRecord t) st).previousFetch + st.createdCount =
        totalRecords st.previousFetch + (recs.foldl (mergeRecord t) st).createdCount ∧
      ∀ q, hasId (recs.foldl (mergeRecord t) st).previousFetch q =
        (hasId st.previousFetch q || decide (q ∈ recs.map (fun r => (t, r.id)))) := by
  induction recs with
  | nil => intro st; simp
  | cons r rs ih =>
    intro st
    obtain ⟨a1, a2, a3⟩ := mergeRecord_counts t st r
    obtain ⟨b1, b2, b3, b4⟩ := ih (mergeRecord t st r)
    simp only [List.foldl_cons, List.map_cons, List.length_cons]
    refine ⟨?_, by omega, by omega, ?_⟩
    · rw [b1, a1, newCount_cons,
        newCount_congr _ _ _ (fun q => hasId_mergeRecord t st r q)]
      omega
    · intro q
      rw [b4, hasId_mergeRecord]
      simp only [List.mem_cons, Bool.or_assoc, Bool.decide_or]

theorem mergeTable_counts (st : MergeState) (entry : String × List Record) :
    (mergeTable st entry).createdCount =
        st.createdCount +
          ((entry.2.map (fun r => (entry.1, r.id))).dedup.filter
            (fun q => !hasId st.previousFetch q)).length ∧
      (mergeTable st entry).createdCount + (mergeTable st entry).updatedCount =
        st.createdCount + st.updatedCount + entry.2.length ∧
      totalRecords (mergeTable st entry).previousFetch + st.createdCount =
        totalRecords st.previousFetch + (mergeTable st entry).createdCount ∧
      ∀ q, hasId (mergeTable st entry).previousFetch q =
        (hasId st.previousFetch q || decide (q ∈ entry.2.map (fun r => (entry.1, r.id)))) := by
  unfold mergeTable
  simp only []
  cases hg : st.previousFetch.get entry.1 with
  | some v => exact foldl_mergeRecord_counts entry.1 entry.2 st
  | none =>
    obtain ⟨b1, b2, b3, b4⟩ := foldl_mergeRecord_counts entry.1 entry.2
      { st with previousFetch := st.previousFetch.set entry.1 [] }
    have h0 : tableOf st.previousFetch entry.1 = [] := by simp [tableOf, hg]
    have hhas : ∀ q, hasId (st.previousFetch.set entry.1 []) q = hasId st.previousFetch q := by
      intro q
      simp only [hasId, tableOf_set]
      by_cases h : entry.1 = q.1
      · rw [if_pos h, ← h, h0]
      · rw [if_neg h]
    have htot : totalRecords (st.previousFetch.set entry.1 []) = totalRecords st.previousFetch := by
      have := totalRecords_set st.previousFetch entry.1 []
      rw [h0] at this
      simpa using this
    simp only [] at b1 b2 b3 b4
    refine ⟨?_, b2, ?_, ?_⟩
    · rw [b1, newCount_congr _ _ _ hhas]
    · rw [htot] at b3; exact b3
    · intro q; rw [b4, hhas]

theorem foldl_mergeTable_counts (cur : Obj (List Record)) : ∀ st : MergeState,
    (cur.foldl mergeTable st).createdCount =
        st.createdCount + (newPairs st.previousFetch cur).length ∧
      (cur.foldl mergeTable st).createdCount + (cur.foldl mergeTable st).updatedCount =
        st.createdCount + st.updatedCount + (fetchedPairs cur).length ∧
      totalRecords (cur.foldl mergeTable st).previousFetch + st.createdCount =
        totalRecords st.previousFetch + (cur.foldl mergeTable st).createdCount := by
  induction cur with
  | nil => intro st; simp [newPairs, fetchedPairs]
  | cons entry rest ih =>
    intro st
    obtain ⟨a1, a2, a3, a4⟩ := mergeTable_counts st entry
    obtain ⟨b1, b2, b3⟩ := ih (mergeTable st entry)
    have hpairs : fetchedPairs (entry :: rest) =
        entry.2.map (fun r => (entry.1, r.id)) ++ fetchedPairs rest := by
      simp [fetchedPairs]
    simp only [List.foldl_cons]
    refine ⟨?_, ?_, by omega⟩
    · rw [b1, a1]
      unfold newPairs
      rw [hpairs, newCount_append, newCount_congr _ _ _ a4]
      omega
    · rw [b2, hpairs, List.length_append, List.length_map]
      omega

theorem mem_ids_upsert (l : List Record) (r : Record) (i : String) :
    decide (i ∈ ids (upsert l r)) = (decide (i ∈ ids l) || decide (i = r.id)) := by
  rw [Bool.eq_iff_iff, ids_upsert]
  simp only [decide_eq_true_eq, Bool.or_eq_true]
  split
  · rename_i hm
    constructor
    · intro h; exact Or.inl h
    · rintro (h | h)
      · exact h
      · rw [h]; exact hm
  · simp

/-- The sequence grows by the number of distinct fetched ids it did not hold. -/
theorem length_foldl_upsert (recs : List Record) : ∀ l : List Record,
    (recs.foldl upsert l).length =
      l.length + ((ids recs).dedup.filter (fun i => !decide (i ∈ ids l))).length := by
  induction recs with
  | nil => intro l; simp [ids]
  | cons r rs ih =>
    intro l
    have hcons : ids (r :: rs) = r.id :: ids rs := rfl
    rw [List.foldl_cons, ih, length_upsert, hcons, newCount_cons,
      newCount_congr _ _ _ (fun i => mem_ids_upsert l r i)]
    simp only [decide_eq_true_eq]
    omega

/-- C2: in the merge step, for every resource, (1) every old position keeps
the id it had, so a fetched record whose id is in the snapshot sequence takes
the place of the entry with that id; (2) the length grows only by the number
of distinct fetched ids that the sequence did not hold, so a fetched record
whose id is in the sequence does not make it longer; (3) for a fetched record
whose id occurs in the sequence, the entry at the position of that id is
afterwards the last fetched record with that id; (4) an entry whose id does
not occur among the fetched records of the resource is unchanged at its
position. -/
theorem merge_replaces_in_place (prev cur : Obj (List Record)) (table : String) :
    (∀ (k : Nat) (e : Record), (tableOf prev table)[k]? = some e →
        ((tableOf (mergeCycle prev cur).previousFetch table)[k]?).map (·.id) = some e.id) ∧
      (tableOf (mergeCycle prev cur).previousFetch table).length =
        (tableOf prev table).length +
          ((ids (fetchedFor cur table)).dedup.filter
            (fun i => !decide (i ∈ ids (tableOf prev table)))).length ∧
      ((∀ r ∈ fetchedFor cur table, r.id ∈ ids (tableOf prev table)) →
        (tableOf (mergeCycle prev cur).previousFetch table).length =
          (tableOf prev table).length) ∧
      (∀ r ∈ fetchedFor cur table, ∀ k : Nat,
        findIndex (fun e => e.id == r.id) (tableOf prev table) = some k →
        (tableOf (mergeCycle prev cur).previousFetch table)[k]? =
          ((fetchedFor cur table).filter (fun x => x.id == r.id)).getLast?) ∧
      (∀ (k : Nat) (e : Record), (tableOf prev table)[k]? = some e →
        e.id ∉ ids (fetchedFor cur table) →
        (tableOf (mergeCycle prev cur).previousFetch table)[k]? = some e) := by
  rw [tableOf_mergeCycle]
  refine ⟨?_, length_foldl_upsert _ _, ?_, ?_, ?_⟩
  · intro k e h
    rw [getElem?_foldl_upsert _ _ k e h]
    split
    · cases hl : ((fetchedFor cur table).filter (fun x => x.id == e.id)).getLast? with
      | none => simp
      | some x =>
        have hx := List.mem_of_getLast?_eq_some hl
        simp only [List.mem_filter, beq_iff_eq] at hx
        simp [hx.2]
    · simp
  · intro h
    have := congrArg List.length (ids_foldl_upsert_of_mem _ _ h)
    simpa [ids] using this
  · intro r hr k hk
    obtain ⟨e, he, hp⟩ := findIndex_some _ _ k hk
    have hid : e.id = r.id := by simpa using hp
    rw [getElem?_foldl_upsert _ _ k e he, hid, if_pos hk]
    cases hl : ((fetchedFor cur table).filter (fun x => x.id == r.id)).getLast? with
    | none =>
      rw [List.getLast?_eq_none_iff] at hl
      have : r ∈ (fetchedFor cur table).filter (fun x => x.id == r.id) := by
        simp [List.mem_filter, hr]
      rw [hl] at this
      simp at this
    | some x => rfl
  · intro k e he hn
    rw [getElem?_foldl_upsert _ _ k e he]
    have hempty : (fetchedFor cur table).filter (fun x => x.id == e.id) = [] := by
      rw [List.filter_eq_nil_iff]
      intro x hx hxe
      apply hn
      simp only [ids, List.mem_map]
      exact ⟨x, hx, by simpa using hxe⟩
    rw [hempty]
    simp

/-- The theorem `merge_replaces_in_place` at the sample data: `rec2` is
fetched twice, the later record ends at position 1; `rec1` stays at 0. -/
theorem merge_replaces_in_place_witness :
    (tableOf (mergeCycle sampleSnapshot sampleCycle).previousFetch "widgets")[1]? =
        some (sampleRecord "rec2" "b2") ∧
      (tableOf (mergeCycle sampleSnapshot sampleCycle).previousFetch "widgets")[0]? =
        some (sampleRecord "rec1" "a") := by
  have h := merge_replaces_in_place sampleSnapshot sampleCycle "widgets"
  refine ⟨?_, h.2.2.2.2 0 (sampleRecord "rec1" "a") (by decide) (by decide)⟩
  rw [h.2.2.2.1 (sampleRecord "rec2" "b1") (by decide) 1 (by decide)]
  decide

theorem fetchBaseFinish_ok_log (cfg : Config) (p : String → Option Int) (s : State) (now : Int)
    (value : Option (Obj (List Record)))
    (h : (fetchBaseFinish cfg p s now).result = .ok value) :
    ((fetchBaseFinish cfg p s now).state.log.map (·.val)).take 2 =
      [.idle, .success
        ((mergeCycle s.previousFetch s.currentFetch).createdCount +
          (mergeCycle s.previousFetch s.currentFetch).updatedCount)
        (mergeCycle s.previousFetch s.currentFetch).updatedCount
        (mergeCycle s.previousFetch s.currentFetch).createdCount] := by
  unfold fetchBaseFinish at h ⊢
  simp only [] at h ⊢
  split
  · rename_i hcond
    rw [if_pos hcond] at h
    split
    · rfl
    · rename_i message hparse
      rw [hparse] at h
      simp [fetchBaseCatch] at h
  · rfl

/-- C3: the counts of the merge step. `createdCount` is the number of
distinct (resource, id) pairs of the cycle result that the snapshot did not
hold before the merge, and the total number of snapshot records grows by it;
`createdCount + updatedCount` is the number of records in the cycle result, so
`updatedCount` counts the remaining fetched records; with an empty snapshot
and fetched records of distinct ids every record is created and none updated;
and when `fetchBase` returns, the `success` status it recorded (just before
`idle`) carries `totalCount = createdCount + updatedCount` and these counts. -/
theorem merge_counts (cfg : Config) (p : String → Option Int) (s : State) (now : Int) :
    (mergeCycle s.previousFetch s.currentFetch).createdCount =
        (newPairs s.previousFetch s.currentFetch).length ∧
      totalRecords (mergeCycle s.previousFetch s.currentFetch).previousFetch =
        totalRecords s.previousFetch +
          (mergeCycle s.previousFetch s.currentFetch).createdCount ∧
      (mergeCycle s.previousFetch s.currentFetch).createdCount +
          (mergeCycle s.previousFetch s.currentFetch).updatedCount =
        (fetchedPairs s.currentFetch).length ∧
      (s.previousFetch = [] → (fetchedPairs s.currentFetch).Nodup →
        (mergeCycle s.previousFetch s.currentFetch).createdCount =
            (fetchedPairs s.currentFetch).length ∧
          (mergeCycle s.previousFetch s.currentFetch).updatedCount = 0) ∧
      (∀ value, (fetchBaseFinish cfg p s now).result = .ok value →
        ((fetchBaseFinish cfg p s now).state.log.map (·.val)).take 2 =
          [.idle, .success
            ((mergeCycle s.previousFetch s.currentFetch).createdCount +
              (mergeCycle s.previousFetch s.currentFetch).updatedCount)
            (mergeCycle s.previousFetch s.currentFetch).updatedCount
            (mergeCycle s.previousFetch s.currentFetch).createdCount]) := by
  obtain ⟨a, b, c⟩ := foldl_mergeTable_counts s.currentFetch
    { previousFetch := s.previousFetch, createdCount := 0, updatedCount := 0 }
  simp only [Nat.zero_add, Nat.add_zero] at a b c
  have a' : (mergeCycle s.previousFetch s.currentFetch).createdCount =
      (newPairs s.previousFetch s.currentFetch).length := a
  have b' : (mergeCycle s.previousFetch s.currentFetch).createdCount +
      (mergeCycle s.previousFetch s.currentFetch).updatedCount =
        (fetchedPairs s.currentFetch).length := b
  refine ⟨a', c, b', ?_, fun value h => fetchBaseFinish_ok_log cfg p s now value h⟩
  intro hempty hnodup
  have hall : (newPairs s.previousFetch s.currentFetch).length =
      (fetchedPairs s.currentFetch).length := by
    unfold newPairs
    rw [hempty, List.Nodup.dedup hnodup, List.filter_eq_self.mpr]
    intro q _
    simp [hasId, tableOf, Obj.get]
  constructor
  · rw [a', hall]
  · rw [a', hall] at b'
    omega

/-- The theorem `merge_counts` at sample data: three records into an empty
snapshot give 3 created and 0 updated; the second sample cycle (one known id
fetched twice, one new id) reports `success` with total 3, updated 2,
created 1. -/
theorem merge_counts_witness :
    ((mergeCycle [] firstCycle).createdCount = 3 ∧ (mergeCycle [] firstCycle).updatedCount = 0) ∧
      ((fetchBaseFinish sampleConfig sampleParse mergeReadyState 7).state.log.map (·.val)).take 2 =
        [.idle, .success 3 2 1] := by
  constructor
  · exact (merge_counts sampleConfig sampleParse
      { construct none 0 with currentFetch := firstCycle } 0).2.2.2.1 rfl (by decide)
  · rw [(merge_counts sampleConfig sampleParse mergeReadyState 7).2.2.2.2
      (some (mergeCycle sampleSnapshot sampleCycle).previousFetch) rfl]
    decide

/-! ## A cycle after a reset request -/

theorem runSteps_resetRequested (steps : List Step) : ∀ s : State,
    s.resetRequested = true → (runSteps s steps).resetRequested = true := by
  induction steps with
  | nil => intro s h; exact h
  | cons step steps ih =>
    intro s h
    rw [runSteps_cons]
    apply ih
    cases step with
    | assignBegin val now => exact h
    | assignEnd => exact h
    | requestReset now => rfl

theorem spread_get_none (extra base : Obj String) (k : String) (hb : base.get k = none)
    (he : ∀ e ∈ extra, e.1 ≠ k) : (spread base extra).get k = none := by
  induction extra generalizing base with
  | nil => exact hb
  | cons e rest ih =>
    unfold spread
    rw [List.foldl_cons]
    apply ih
    · rw [Obj.get_set, if_neg (he e (List.mem_cons_self _ _))]
      exact hb
    · intro x hx
      exact he x (List.mem_cons_of_mem _ hx)

theorem requestQuery_no_filter (toJSON : Int → String) (s : State) (task : PageTask)
    (hs : s.fromDate = none) (hq : ∀ e ∈ task.query, e.1 ≠ "filterByFormula") :
    (requestQuery toJSON s task).get "filterByFormula" = none := by
  unfold requestQuery filterPart offsetPart
  simp only [hs]
  apply spread_get_none
  · apply spread_get_none
    · exact spread_get_none _ _ _ rfl hq
    · intro e he
      cases ho : task.offset with
      | none => simp [ho] at he
      | some offset =>
        by_cases hempty : offset = ""
        · simp [ho, hempty] at he
        · simp only [ho, hempty, ↓reduceIte, List.mem_singleton] at he
          rw [he]
          show "offset" ≠ "filterByFormula"
          decide
  · intro e he
    simp at he

/-- With a cursor the request carries the modified-after filter. -/
theorem requestQuery_filter (toJSON : Int → String) (s : State) (task : PageTask) (d : Int)
    (hs : s.fromDate = some d) :
    (requestQuery toJSON s task).get "filterByFormula" = some (modifiedAfter toJSON d) := by
  unfold requestQuery filterPart
  simp only [hs, spread, List.foldl_cons, List.foldl_nil]
  rw [Obj.get_set, if_pos rfl]

theorem mem_fetchedFor (cur : Obj (List Record)) (t : String) (r : Record)
    (h : r ∈ fetchedFor cur t) : ∃ entry ∈ cur, entry.1 = t ∧ r ∈ entry.2 := by
  simp only [fetchedFor, List.mem_flatten, List.mem_map, List.mem_filter, beq_iff_eq] at h
  obtain ⟨l, ⟨entry, ⟨he, hk⟩, rfl⟩, hr⟩ := h
  exact ⟨entry, he, hk, hr⟩

theorem fetchBaseFinish_previousFetch (cfg : Config) (p : String → Option Int) (s : State)
    (now : Int) :
    (fetchBaseFinish cfg p s now).state.previousFetch =
      (mergeCycle s.previousFetch s.currentFetch).previousFetch := by
  unfold fetchBaseFinish
  simp only []
  split
  · split <;> rfl
  · rfl

theorem runFetch_cons (cfg : Config) (s : State) (ev : FetchEvent) (events : List FetchEvent) :
    runFetch cfg s (ev :: events) = runFetch cfg (ev.apply cfg s) events := rfl

/-- Every event is a step of the fetch phase. -/
theorem FetchStep_of_event (cfg : Config) (s : State) (ev : FetchEvent) :
    FetchStep cfg s (ev.apply cfg s) := by
  cases ev with
  | started => exact FetchStep.started s
  | answered task records offset => exact FetchStep.answered s task records offset
  | failed task err now =>
    cases h : pageTaskCatch s task err now with
    | throws e s1 =>
      have : FetchEvent.apply cfg s (.failed task err now) = s1 := by
        simp [FetchEvent.apply, h]
      rw [this]
      exact FetchStep.threw s task err now e s1 h
    | waits s1 =>
      have : FetchEvent.apply cfg s (.failed task err now) = s1 := by
        simp [FetchEvent.apply, h]
      rw [this]
      exact FetchStep.paused s task err now s1 h
  | resumed task now => exact FetchStep.resumed s task now
  | resetAsked now => exact FetchStep.resetAsked s now

/-- Every step of the fetch phase is an event. -/
theorem event_of_FetchStep (cfg : Config) (s s1 : State) (h : FetchStep cfg s s1) :
    ∃ ev : FetchEvent, ev.apply cfg s = s1 := by
  cases h with
  | started => exact ⟨.started, rfl⟩
  | answered task records offset => exact ⟨.answered task records offset, rfl⟩
  | threw task err now e _ hthrow =>
    exact ⟨.failed task err now, by simp [FetchEvent.apply, hthrow]⟩
  | paused task err now _ hwait =>
    exact ⟨.failed task err now, by simp [FetchEvent.apply, hwait]⟩
  | resumed task now => exact ⟨.resumed task now, rfl⟩
  | resetAsked now => exact ⟨.resetAsked now, rfl⟩

theorem FetchReach_runFetch (cfg : Config) (events : List FetchEvent) : ∀ s : State,
    FetchReach cfg s (runFetch cfg s events) := by
  induction events with
  | nil => intro s; exact Relation.ReflTransGen.refl
  | cons ev events ih =>
    intro s
    rw [runFetch_cons]
    exact Relation.ReflTransGen.head (FetchStep_of_event cfg s ev) (ih _)

/-- The states the fetch phase can reach are the results of its sequences
of events. -/
theorem FetchReach_iff_runFetch (cfg : Config) (s0 s : State) :
    FetchReach cfg s0 s ↔ ∃ events, runFetch cfg s0 events = s := by
  constructor
  · intro h
    induction h with
    | refl => exact ⟨[], rfl⟩
    | tail _ hstep ih =>
      obtain ⟨events, hev⟩ := ih
      obtain ⟨ev, hone⟩ := event_of_FetchStep cfg _ _ hstep
      refine ⟨events ++ [ev], ?_⟩
      simp only [runFetch, List.foldl_append, List.foldl_cons, List.foldl_nil]
      simp only [runFetch] at hev
      rw [hev, hone]
  · rintro ⟨events, rfl⟩
    exact FetchReach_runFetch cfg events s0

theorem Obj.mem_set {α : Type} (o : Obj α) (k : String) (v : α) (e : String × α)
    (h : e ∈ o.set k v) : e = (k, v) ∨ e ∈ o := by
  induction o with
  | nil =>
    simp only [Obj.set, List.mem_singleton] at h
    exact Or.inl h
  | cons x rest ih =>
    obtain ⟨k', v'⟩ := x
    by_cases hk : k' = k
    · simp only [Obj.set, hk, ↓reduceIte, List.mem_cons] at h
      rcases h with h | h
      · exact Or.inl h
      · exact Or.inr (List.mem_cons_of_mem _ h)
    · simp only [Obj.set, hk, ↓reduceIte, List.mem_cons] at h
      rcases h with h | h
      · exact Or.inr (h ▸ List.mem_cons_self _ _)
      · rcases ih h with h1 | h1
        · exact Or.inl h1
        · exact Or.inr (List.mem_cons_of_mem _ h1)

theorem mem_of_mem_tableOf (o : Obj (List Record)) (k : String) (r : Record)
    (h : r ∈ tableOf o k) : ∃ v, (k, v) ∈ o ∧ r ∈ v := by
  induction o with
  | nil => simp [tableOf, Obj.get] at h
  | cons x rest ih =>
    obtain ⟨k', v'⟩ := x
    by_cases hk : k' = k
    · subst hk
      simp only [tableOf, Obj.get, ↓reduceIte, Option.getD_some] at h
      exact ⟨v', List.mem_cons_self _ _, h⟩
    · have h1 : r ∈ tableOf rest k := by
        simpa [tableOf, Obj.get, hk] using h
      obtain ⟨v, hv, hr⟩ := ih h1
      exact ⟨v, List.mem_cons_of_mem _ hv, hr⟩

theorem pageTaskSuccess_currentFetch (cfg : Config) (s : State) (task : PageTask)
    (records : List Record) (offset : Option String) :
    (pageTaskSuccess cfg s task records offset).currentFetch =
      s.currentFetch.set (cfg.getTableKey task.tableName)
        (tableOf s.currentFetch (cfg.getTableKey task.tableName) ++ records) := by
  unfold pageTaskSuccess
  cases offset with
  | none => rfl
  | some next =>
    by_cases h : next = ""
    · simp [h]
    · simp [h]

theorem pageTaskCatch_currentFetch (s : State) (task : PageTask) (err : RequestError)
    (now : Int) :
    (match pageTaskCatch s task err now with
      | .throws _ s1 => s1
      | .waits s1 => s1).currentFetch = s.currentFetch := by
  unfold pageTaskCatch
  cases err.response with
  | none => rfl
  | some response =>
    by_cases hc : response.statusCode = 429
    · simp only [hc, ne_eq, not_true_eq_false, ↓reduceIte]
      rfl
    · simp only [ne_eq, hc, not_false_eq_true, ↓reduceIte]

/-- Where the records of the accumulator come from: a record found in
`currentFetch` after a sequence of events was there before, under the same
key, or is a record of an answer among the events, for a table of that key. -/
theorem runFetch_currentFetch (cfg : Config) (events : List FetchEvent) : ∀ s : State,
    ∀ entry ∈ (runFetch cfg s events).currentFetch, ∀ r ∈ entry.2,
      (∃ old ∈ s.currentFetch, old.1 = entry.1 ∧ r ∈ old.2) ∨
      ∃ task records offset, FetchEvent.answered task records offset ∈ events ∧
        cfg.getTableKey task.tableName = entry.1 ∧ r ∈ records := by
  induction events with
  | nil =>
    intro s entry he r hr
    exact Or.inl ⟨entry, he, rfl, hr⟩
  | cons ev events ih =>
    intro s entry he r hr
    rw [runFetch_cons] at he
    rcases ih _ entry he r hr with ⟨old, hold, hkey, hmem⟩ | ⟨task, records, offset, hin, hkey, hmem⟩
    · cases ev with
      | answered task records offset =>
        simp only [FetchEvent.apply] at hold
        rw [pageTaskSuccess_currentFetch] at hold
        rcases Obj.mem_set _ _ _ _ hold with heq | hin
        · rw [heq] at hkey hmem
          simp only at hkey hmem
          rcases List.mem_append.mp hmem with h1 | h1
          · obtain ⟨v, hv, hrv⟩ := mem_of_mem_tableOf _ _ r h1
            exact Or.inl ⟨_, hv, hkey, hrv⟩
          · exact Or.inr ⟨task, records, offset, List.mem_cons_self _ _, hkey, h1⟩
        · exact Or.inl ⟨old, hin, hkey, hmem⟩
      | started => exact Or.inl ⟨old, hold, hkey, hmem⟩
      | failed task err now =>
        simp only [FetchEvent.apply] at hold
        rw [pageTaskCatch_currentFetch] at hold
        exact Or.inl ⟨old, hold, hkey, hmem⟩
      | resumed task now => exact Or.inl ⟨old, hold, hkey, hmem⟩
      | resetAsked now => exact Or.inl ⟨old, hold, hkey, hmem⟩
    · exact Or.inr ⟨task, records, offset, List.mem_cons_of_mem _ hin, hkey, hmem⟩

/-- C8: after `requestReset` (and whatever status assignments and reset
requests follow before the cycle), the start of the next `fetchBase` clears
the reset flag, the cursor, the snapshot and the accumulator of the cycle
result; after any sequence of events of the fetch phase, cursor and snapshot
are still empty, so every page request built there consists of the
configured query and the offset alone, without a `filterByFormula` entry
(unless the configured query has one of its own); every record of the cycle
result is a record of an answer received in this fetch phase, for a table of
that key; and the end of the cycle leaves as snapshot the merge of the cycle
result into the empty snapshot, whose records all are records of the cycle
result under the same key and so records answered in this cycle. -/
theorem reset_discards_cursor_and_snapshot (cfg : Config) (s0 : State) (asked start : Int)
    (steps : List Step) (events : List FetchEvent) :
    ((fetchBaseStart cfg (runSteps (requestReset s0 asked) steps) start).resetRequested = false ∧
        (fetchBaseStart cfg (runSteps (requestReset s0 asked) steps) start).currentFetch = []) ∧
      ((runFetch cfg (fetchBaseStart cfg (runSteps (requestReset s0 asked) steps) start)
          events).fromDate = none ∧
        (runFetch cfg (fetchBaseStart cfg (runSteps (requestReset s0 asked) steps) start)
          events).previousFetch = []) ∧
      (∀ (toJSON : Int → String) (task : PageTask),
        requestQuery toJSON
            (runFetch cfg (fetchBaseStart cfg (runSteps (requestReset s0 asked) steps) start)
              events) task =
          spread (spread [] task.query) (offsetPart task) ∧
          ((∀ e ∈ task.query, e.1 ≠ "filterByFormula") →
            (requestQuery toJSON
              (runFetch cfg (fetchBaseStart cfg (runSteps (requestReset s0 asked) steps) start)
                events) task).get "filterByFormula" = none)) ∧
      (∀ entry ∈ (runFetch cfg (fetchBaseStart cfg (runSteps (requestReset s0 asked) steps)
          start) events).currentFetch, ∀ r ∈ entry.2,
        ∃ task records offset, FetchEvent.answered task records offset ∈ events ∧
          cfg.getTableKey task.tableName = entry.1 ∧ r ∈ records) ∧
      (∀ (p : String → Option Int) (now : Int),
        (fetchBaseFinish cfg p
            (runFetch cfg (fetchBaseStart cfg (runSteps (requestReset s0 asked) steps) start)
              events) now).state.previousFetch =
          (mergeCycle []
            (runFetch cfg (fetchBaseStart cfg (runSteps (requestReset s0 asked) steps) start)
              events).currentFetch).previousFetch ∧
          ∀ (t : String) (r : Record),
            r ∈ tableOf (fetchBaseFinish cfg p
              (runFetch cfg (fetchBaseStart cfg (runSteps (requestReset s0 asked) steps) start)
                events) now).state.previousFetch t →
            (∃ entry ∈ (runFetch cfg
                (fetchBaseStart cfg (runSteps (requestReset s0 asked) steps) start)
                events).currentFetch, entry.1 = t ∧ r ∈ entry.2) ∧
              ∃ task records offset, FetchEvent.answered task records offset ∈ events ∧
                cfg.getTableKey task.tableName = t ∧ r ∈ records) := by
  have hflag : (runSteps (requestReset s0 asked) steps).resetRequested = true :=
    runSteps_resetRequested steps _ rfl
  have hstart : (fetchBaseStart cfg (runSteps (requestReset s0 asked) steps) start).resetRequested =
        false ∧
      (fetchBaseStart cfg (runSteps (requestReset s0 asked) steps) start).fromDate = none ∧
      (fetchBaseStart cfg (runSteps (requestReset s0 asked) steps) start).previousFetch = [] ∧
      (fetchBaseStart cfg (runSteps (requestReset s0 asked) steps) start).currentFetch = [] := by
    simp [fetchBaseStart, setStatus, setStatusWrite, setStatusDone, hflag]
  obtain ⟨hf, hp⟩ := FetchReach_frame cfg _ _
    (FetchReach_runFetch cfg events
      (fetchBaseStart cfg (runSteps (requestReset s0 asked) steps) start))
  rw [hstart.2.1] at hf
  rw [hstart.2.2.1] at hp
  have hcur : ∀ entry ∈ (runFetch cfg (fetchBaseStart cfg (runSteps (requestReset s0 asked) steps)
      start) events).currentFetch, ∀ r ∈ entry.2,
      ∃ task records offset, FetchEvent.answered task records offset ∈ events ∧
        cfg.getTableKey task.tableName = entry.1 ∧ r ∈ records := by
    intro entry he r hr
    rcases runFetch_currentFetch cfg events _ entry he r hr with ⟨old, hold, _, _⟩ | h
    · rw [hstart.2.2.2] at hold
      simp at hold
    · exact h
  refine ⟨⟨hstart.1, hstart.2.2.2⟩, ⟨hf, hp⟩, ?_, hcur, ?_⟩
  · intro toJSON task
    refine ⟨?_, fun hq => requestQuery_no_filter toJSON _ task hf hq⟩
    simp [requestQuery, filterPart, hf, spread]
  · intro p now
    have hfin := fetchBaseFinish_previousFetch cfg p
      (runFetch cfg (fetchBaseStart cfg (runSteps (requestReset s0 asked) steps) start) events) now
    rw [hp] at hfin
    refine ⟨hfin, ?_⟩
    intro t r hr
    rw [hfin, tableOf_mergeCycle] at hr
    rcases mem_foldl_upsert _ _ r hr with h | h
    · simp [tableOf, Obj.get] at h
    · obtain ⟨entry, he, hkey, hmem⟩ := mem_fetchedFor _ t r h
      refine ⟨⟨entry, he, hkey, hmem⟩, ?_⟩
      obtain ⟨task, records, offset, hin, hk, hrec⟩ := hcur entry he r hmem
      exact ⟨task, records, offset, hin, hk.trans hkey, hrec⟩

/-- The theorem `reset_discards_cursor_and_snapshot` at `staleState`, whose
snapshot and accumulator held three records and which had a cursor: after the
reset cycle with `resetEvents` the request of the first page has no filter
and the snapshot holds the one record that was answered. -/
theorem reset_discards_cursor_and_snapshot_witness :
    staleState.currentFetch = sampleSnapshot ∧ resetStart.currentFetch = [] ∧
      (requestQuery (fun _ => "2020-01-01T00:00:00.000Z")
        (runFetch sampleConfig resetStart resetEvents) sampleTask).get "filterByFormula" = none ∧
      (fetchBaseFinish sampleConfig sampleParse (runFetch sampleConfig resetStart resetEvents)
        1600000000002).state.previousFetch = [("widgets", [sampleRecord "rec9" "z"])] := by
  have h := reset_discards_cursor_and_snapshot sampleConfig staleState 1600000000000
    1600000000001 [] resetEvents
  refine ⟨rfl, h.1.2, (h.2.2.1 _ sampleTask).2 (by decide), ?_⟩
  have h5 := (h.2.2.2.2 sampleParse 1600000000002).1
  exact h5.trans (by decide)

/-! ## The loop of collapsedLog -/

theorem collapseLoop_done (fuel : Nat) (heap : List Event) (arr : List Nat) (i : Nat)
    (h : arr.length ≤ i) : collapseLoop fuel heap arr i = some (heap, arr) := by
  have : ¬ i < arr.length := by omega
  cases fuel <;> simp [collapseLoop, this]

theorem collapseLoop_merge (fuel : Nat) (heap : List Event) (arr : List Nat) (i c p : Nat)
    (ec ep : Event) (hc : arr[i]? = some c) (hp : arr[i - 1]? = some p)
    (hec : heap[c]? = some ec) (hep : heap[p]? = some ep)
    (hsame : (sameError ec ep || sameNoResult ec ep) = true) :
    collapseLoop (fuel + 1) heap arr i =
      collapseLoop fuel (heap.set p (bumpRepeat ep)) (arr.eraseIdx i) i := by
  have hi : i < arr.length := by
    rcases Nat.lt_or_ge i arr.length with hlt | hge
    · exact hlt
    · rw [List.getElem?_eq_none hge] at hc; simp at hc
  rw [collapseLoop]
  simp only [hi, ↓reduceIte, hc, hp, hec, hep, hsame]

theorem collapseLoop_keep (fuel : Nat) (heap : List Event) (arr : List Nat) (i c p : Nat)
    (ec ep : Event) (hc : arr[i]? = some c) (hp : arr[i - 1]? = some p)
    (hec : heap[c]? = some ec) (hep : heap[p]? = some ep)
    (hdiff : (sameError ec ep || sameNoResult ec ep) = false) :
    collapseLoop (fuel + 1) heap arr i = collapseLoop fuel heap arr (i + 1) := by
  have hi : i < arr.length := by
    rcases Nat.lt_or_ge i arr.length with hlt | hge
    · exact hlt
    · rw [List.getElem?_eq_none hge] at hc; simp at hc
  rw [collapseLoop]
  simp only [hi, ↓reduceIte, hc, hp, hec, hep, hdiff, Bool.false_eq_true]

/-- One merge at the position after `done`. -/
theorem collapseLoop_merge_at (fuel : Nat) (heap : List Event) (done rest : List Nat) (p c : Nat)
    (ec ep : Event) (hec : heap[c]? = some ec) (hep : heap[p]? = some ep)
    (hsame : (sameError ec ep || sameNoResult ec ep) = true) :
    collapseLoop (fuel + 1) heap (done ++ p :: c :: rest) (done.length + 1) =
      collapseLoop fuel (heap.set p (bumpRepeat ep)) (done ++ p :: rest) (done.length + 1) := by
  have hc : (done ++ p :: c :: rest)[done.length + 1]? = some c := by
    rw [List.getElem?_append_right (by omega)]
    simp
  have hp : (done ++ p :: c :: rest)[done.length + 1 - 1]? = some p := by
    rw [Nat.add_sub_cancel, List.getElem?_append_right (le_refl _)]
    simp
  rw [collapseLoop_merge fuel heap _ _ c p ec ep hc hp hec hep hsame]
  congr 1
  rw [List.eraseIdx_append_of_length_le (by omega)]
  simp

theorem getElem?_set_bump (heap : List Event) (p j : Nat) (ep e : Event)
    (hep : heap[p]? = some ep) :
    (heap.set p e)[j]? = if p = j then some e else heap[j]? := by
  have hp : p < heap.length := by
    rcases Nat.lt_or_ge p heap.length with hlt | hge
    · exact hlt
    · rw [List.getElem?_eq_none hge] at hep; simp at hep
  rw [List.getElem?_set]
  by_cases h : p = j
  · subst h; simp [hp]
  · simp [h]

/-- The two tests of the loop read only the `type` and `data` of an entry. -/
theorem sameTests_congr (c c' p p' : Event) (hc : c'.val = c.val) (hp : p'.val = p.val) :
    (sameError c' p' || sameNoResult c' p') = (sameError c p || sameNoResult c p) := by
  simp only [sameError, sameNoResult, hc, hp]

theorem iterate_bump_val (n : Nat) (e : Event) : (bumpRepeat^[n] e).val = e.val := by
  induction n generalizing e with
  | zero => rfl
  | succ n ih => rw [Function.iterate_succ_apply, ih]; rfl

theorem iterate_bump_fresh (n : Nat) (e : Event) (h : e.repeatCount = none) :
    bumpRepeat^[n + 1] e = { e with repeatCount := some (n + 1) } := by
  induction n with
  | zero => simp [bumpRepeat, h]
  | succ n ih =>
    rw [Function.iterate_succ_apply', ih]
    simp [bumpRepeat]

theorem set_self_of_getElem? (heap : List Event) (a : Nat) (ea : Event)
    (hea : heap[a]? = some ea) : heap.set a ea = heap := by
  apply List.ext_getElem?
  intro j
  rw [getElem?_set_bump heap a j ea ea hea]
  by_cases h : a = j
  · subst h; simp [hea]
  · simp [h]

/-- The loop merges a run of entries into the entry before the run, raising
its repeat count once per merged entry. -/
theorem collapseLoop_run (a : Nat) (done rest : List Nat) (run : List Nat) :
    ∀ (fuel : Nat) (heap : List Event) (ea : Event), heap[a]? = some ea →
    (∀ c ∈ run, ∃ ec, heap[c]? = some ec ∧
      (sameError ec ea || sameNoResult ec ea) = true) →
    collapseLoop (fuel + run.length) heap (done ++ a :: (run ++ rest)) (done.length + 1) =
      collapseLoop fuel (heap.set a (bumpRepeat^[run.length] ea)) (done ++ a :: rest)
        (done.length + 1) := by
  induction run with
  | nil =>
    intro fuel heap ea hea _
    simp only [List.length_nil, Nat.add_zero, Function.iterate_zero, id_eq, List.nil_append]
    rw [set_self_of_getElem? heap a ea hea]
  | cons c cs ih =>
    intro fuel heap ea hea hrun
    obtain ⟨ec, hec, hsame⟩ := hrun c (List.mem_cons_self _ _)
    have hfuel : fuel + (c :: cs).length = (fuel + cs.length) + 1 := by
      simp only [List.length_cons]; omega
    rw [hfuel, List.cons_append,
      collapseLoop_merge_at _ heap done (cs ++ rest) a c ec ea hec hea hsame]
    have hea1 : (heap.set a (bumpRepeat ea))[a]? = some (bumpRepeat ea) := by
      rw [getElem?_set_bump heap a a ea _ hea]; simp
    have hrun1 : ∀ c' ∈ cs, ∃ ec', (heap.set a (bumpRepeat ea))[c']? = some ec' ∧
        (sameError ec' (bumpRepeat ea) || sameNoResult ec' (bumpRepeat ea)) = true := by
      intro c' hc'
      obtain ⟨ec', hec', hsame'⟩ := hrun c' (List.mem_cons_of_mem _ hc')
      refine ⟨if a = c' then bumpRepeat ea else ec', ?_, ?_⟩
      · rw [getElem?_set_bump heap a c' ea _ hea]
        by_cases h : a = c'
        · simp [h]
        · simp [h, hec']
      · rw [← hsame']
        apply sameTests_congr
        · by_cases h : a = c'
          · subst h
            rw [hea] at hec'
            rw [if_pos rfl, ← Option.some.inj hec']
            rfl
          · rw [if_neg h]
        · rfl
    rw [ih fuel _ (bumpRepeat ea) hea1 hrun1, List.set_set, List.length_cons,
      Function.iterate_succ_apply]

theorem collapses_congr_right (log : List Event) (x a b : Nat) (ea eb : Event)
    (ha : log[a]? = some ea) (hb : log[b]? = some eb) (hval : ea.val = eb.val) :
    collapses log x a = collapses log x b := by
  unfold collapses
  rw [ha, hb]
  cases log[x]? with
  | none => rfl
  | some ex => exact sameTests_congr ex ex eb ea rfl hval

/-- The loop of `collapsedLog` ends within the fuel it is given: the getter
returns a result for every log. -/
theorem collapseLoop_isSome (fuel : Nat) : ∀ (heap : List Event) (arr : List Nat) (i : Nat),
    (∀ j ∈ arr, j < heap.length) → 1 ≤ i → arr.length ≤ fuel + i →
    (collapseLoop fuel heap arr i).isSome = true := by
  induction fuel with
  | zero =>
    intro heap arr i _ _ hlen
    rw [collapseLoop_done 0 heap arr i (by omega)]
    rfl
  | succ fuel ih =>
    intro heap arr i hin hi hlen
    by_cases hlt : i < arr.length
    · have hlt1 : i - 1 < arr.length := by omega
      obtain ⟨c, hc⟩ : ∃ c, arr[i]? = some c := ⟨arr[i], List.getElem?_eq_getElem hlt⟩
      obtain ⟨p, hp⟩ : ∃ p, arr[i - 1]? = some p := ⟨arr[i - 1], List.getElem?_eq_getElem hlt1⟩
      have hcr : c < heap.length := hin c (List.getElem?_mem hc)
      have hpr : p < heap.length := hin p (List.getElem?_mem hp)
      obtain ⟨ec, hec⟩ : ∃ ec, heap[c]? = some ec := ⟨heap[c], List.getElem?_eq_getElem hcr⟩
      obtain ⟨ep, hep⟩ : ∃ ep, heap[p]? = some ep := ⟨heap[p], List.getElem?_eq_getElem hpr⟩
      cases hs : (sameError ec ep || sameNoResult ec ep) with
      | true =>
        rw [collapseLoop_merge fuel heap arr i c p ec ep hc hp hec hep hs]
        apply ih
        · intro j hj
          rw [List.length_set]
          exact hin j (List.mem_of_mem_eraseIdx hj)
        · exact hi
        · rw [List.length_eraseIdx_of_lt hlt]; omega
      | false =>
        rw [collapseLoop_keep fuel heap arr i c p ec ep hc hp hec hep hs]
        exact ih heap arr (i + 1) hin (by omega) (by omega)
    · rw [collapseLoop_done _ heap arr i (by omega)]
      rfl

theorem collapsedLog_total (log : List Event) : ∃ r, collapsedLog log = some r := by
  have h := collapseLoop_isSome (displayedIndices log).length log (displayedIndices log) 1
    (by
      intro j hj
      simp only [displayedIndices, List.mem_filter, List.mem_range] at hj
      exact hj.1)
    (le_refl _) (by omega)
  cases hl : collapseLoop (displayedIndices log).length log (displayedIndices log) 1 with
  | none => rw [hl] at h; simp at h
  | some r =>
    exact ⟨{ log := r.1, indices := r.2, entries := r.2.filterMap (fun j => r.1[j]?) },
      by simp only [collapsedLog, hl]⟩

/-! ## The loop around a run of identical errors -/

theorem beq_eq_decide_string (a b : String) : (a == b) = decide (a = b) := by
  by_cases h : a = b <;> simp [h]

theorem sameTests_eq_key (c p : Event) :
    (sameError c p || sameNoResult c p) =
      (decide (mergeKey c.val = mergeKey p.val) && (mergeKey c.val).isSome) := by
  cases hc : c.val <;> cases hp : p.val <;>
    simp only [sameError, sameNoResult, mergeKey, hc, hp] <;>
    (try split) <;> (try split) <;>
    (try simp_all; try exact beq_eq_decide_string _ _)

theorem collapses_eq_key (heap : List Event) (c p : Nat) (hc : c < heap.length)
    (hp : p < heap.length) :
    collapses heap c p = (decide (keyAt heap c = keyAt heap p) && (keyAt heap c).isSome) := by
  unfold collapses keyAt
  rw [List.getElem?_eq_getElem hc, List.getElem?_eq_getElem hp]
  simp only [Option.bind_some]
  exact sameTests_eq_key _ _

theorem keyAt_set (heap : List Event) (a j : Nat) (ea e : Event) (hea : heap[a]? = some ea)
    (hval : e.val = ea.val) : keyAt (heap.set a e) j = keyAt heap j := by
  unfold keyAt
  rw [getElem?_set_bump heap a j ea e hea]
  by_cases h : a = j
  · subst h; simp [hea, hval]
  · simp [h]



theorem keyAt_eq_of_collapses (heap : List Event) (c p : Nat) (hc : c < heap.length)
    (hp : p < heap.length) (h : collapses heap c p = true) : keyAt heap c = keyAt heap p := by
  rw [collapses_eq_key heap c p hc hp] at h
  simp only [Bool.and_eq_true, decide_eq_true_eq] at h
  exact h.1

theorem collapses_congr_key (heap heap' : List Event) (c p c' p' : Nat)
    (hc : c < heap.length) (hp : p < heap.length) (hc' : c' < heap'.length)
    (hp' : p' < heap'.length) (h1 : keyAt heap' c' = keyAt heap c)
    (h2 : keyAt heap' p' = keyAt heap p) : collapses heap' c' p' = collapses heap c p := by
  rw [collapses_eq_key heap c p hc hp, collapses_eq_key heap' c' p' hc' hp', h1, h2]

theorem collapseLoop_step_merge (fuel : Nat) (heap : List Event) (done rest : List Nat)
    (p c : Nat) (hc : c < heap.length) (hp : p < heap.length)
    (h : collapses heap c p = true) :
    ∃ ep, heap[p]? = some ep ∧
      collapseLoop (fuel + 1) heap (done ++ p :: c :: rest) (done.length + 1) =
        collapseLoop fuel (heap.set p (bumpRepeat ep)) (done ++ p :: rest) (done.length + 1) := by
  have hec : heap[c]? = some heap[c] := List.getElem?_eq_getElem hc
  have hep : heap[p]? = some heap[p] := List.getElem?_eq_getElem hp
  refine ⟨heap[p], hep, ?_⟩
  apply collapseLoop_merge_at fuel heap done rest p c heap[c] heap[p] hec hep
  simpa [collapses, hec, hep] using h

theorem collapseLoop_step_keep (fuel : Nat) (heap : List Event) (done rest : List Nat)
    (p c : Nat) (hc : c < heap.length) (hp : p < heap.length)
    (h : collapses heap c p = false) :
    collapseLoop (fuel + 1) heap (done ++ p :: c :: rest) (done.length + 1) =
      collapseLoop fuel heap ((done ++ [p]) ++ c :: rest) ((done ++ [p]).length + 1) := by
  have hec : heap[c]? = some heap[c] := List.getElem?_eq_getElem hc
  have hep : heap[p]? = some heap[p] := List.getElem?_eq_getElem hp
  have hci : (done ++ p :: c :: rest)[done.length + 1]? = some c := by
    rw [List.getElem?_append_right (by omega)]
    simp
  have hpi : (done ++ p :: c :: rest)[done.length + 1 - 1]? = some p := by
    rw [Nat.add_sub_cancel, List.getElem?_append_right (le_refl _)]
    simp
  rw [collapseLoop_keep fuel heap _ _ c p heap[c] heap[p] hci hpi hec hep
    (by simpa [collapses, hec, hep] using h)]
  simp

/-- The loop run over a stretch `xs` that follows the entry `q`: it uses one
unit of fuel per entry, keeps a sublist of the stretch, touches only entries
of the stretch, changes no merge key, and the entry left in front of the rest
has the merge key of the last entry of the stretch. -/
theorem collapseLoop_prefix (xs : List Nat) :
    ∀ (heap : List Event) (done : List Nat) (q : Nat) (rest : List Nat) (fuel : Nat),
    (∀ j ∈ q :: xs, j < heap.length) →
    ∃ (heap' : List Event) (mid : List Nat) (q' : Nat),
      collapseLoop (fuel + xs.length) heap (done ++ q :: (xs ++ rest)) (done.length + 1) =
        collapseLoop fuel heap' ((done ++ mid) ++ q' :: rest) ((done ++ mid).length + 1) ∧
      (mid ++ [q']).Sublist (q :: xs) ∧
      heap'.length = heap.length ∧
      (∀ j, j ∉ q :: xs → heap'[j]? = heap[j]?) ∧
      (∀ j, keyAt heap' j = keyAt heap j) ∧
      (∀ l, (q :: xs).getLast? = some l → keyAt heap q' = keyAt heap l) := by
  induction xs with
  | nil =>
    intro heap done q rest fuel _
    refine ⟨heap, [], q, by simp, by simp, rfl, fun _ _ => rfl, fun _ => rfl, ?_⟩
    intro l hl
    simp at hl
    rw [hl]
  | cons x xs ih =>
    intro heap done q rest fuel hin
    have hq : q < heap.length := hin q (List.mem_cons_self _ _)
    have hx : x < heap.length := hin x (List.mem_cons_of_mem _ (List.mem_cons_self _ _))
    have hfuel : fuel + (x :: xs).length = (fuel + xs.length) + 1 := by
      simp only [List.length_cons]; omega
    rw [hfuel, List.cons_append]
    cases hcol : collapses heap x q with
    | true =>
      obtain ⟨eq, heq, hstep⟩ := collapseLoop_step_merge (fuel + xs.length) heap done
        (xs ++ rest) q x hx hq hcol
      have hin1 : ∀ j ∈ q :: xs, j < (heap.set q (bumpRepeat eq)).length := by
        intro j hj
        rw [List.length_set]
        rcases List.mem_cons.mp hj with h | h
        · rw [h]; exact hq
        · exact hin j (List.mem_cons_of_mem _ (List.mem_cons_of_mem _ h))
      obtain ⟨heap', mid, q', h1, h2, h3, h4, h5, h6⟩ :=
        ih (heap.set q (bumpRepeat eq)) done q rest fuel hin1
      have hkey : ∀ j, keyAt (heap.set q (bumpRepeat eq)) j = keyAt heap j :=
        fun j => keyAt_set heap q j eq _ heq rfl
      refine ⟨heap', mid, q', by rw [hstep, h1], ?_, ?_, ?_, ?_, ?_⟩
      · exact h2.trans (List.Sublist.cons₂ q (List.sublist_cons_self x xs))
      · rw [h3, List.length_set]
      · intro j hj
        have hj1 : j ∉ q :: xs := by
          intro hm
          apply hj
          rcases List.mem_cons.mp hm with h | h
          · rw [h]; exact List.mem_cons_self _ _
          · exact List.mem_cons_of_mem _ (List.mem_cons_of_mem _ h)
        have hjq : ¬ q = j := by
          intro h
          apply hj
          rw [← h]
          exact List.mem_cons_self _ _
        rw [h4 j hj1, getElem?_set_bump heap q j eq _ heq, if_neg hjq]
      · intro j
        rw [h5, hkey]
      · intro l hl
        rw [List.getLast?_cons_cons] at hl
        cases xs with
        | nil =>
          simp only [List.getLast?_singleton, Option.some.injEq] at hl
          have := h6 q (by simp)
          rw [hkey, hkey] at this
          rw [this, ← hl]
          exact (keyAt_eq_of_collapses heap x q hx hq hcol).symm
        | cons y ys =>
          have := h6 l (by rw [List.getLast?_cons_cons]; rw [List.getLast?_cons_cons] at hl; exact hl)
          rw [hkey, hkey] at this
          exact this
    | false =>
      rw [collapseLoop_step_keep (fuel + xs.length) heap done (xs ++ rest) q x hx hq hcol]
      have hin1 : ∀ j ∈ x :: xs, j < heap.length :=
        fun j hj => hin j (List.mem_cons_of_mem _ hj)
      obtain ⟨heap', mid, q', h1, h2, h3, h4, h5, h6⟩ :=
        ih heap (done ++ [q]) x rest fuel hin1
      refine ⟨heap', q :: mid, q', ?_, ?_, h3, ?_, h5, ?_⟩
      · rw [h1]
        simp
      · exact List.Sublist.cons₂ q h2
      · intro j hj
        exact h4 j (fun hm => hj (List.mem_cons_of_mem _ hm))
      · intro l hl
        rw [List.getLast?_cons_cons] at hl
        exact h6 l hl



theorem nodup_displayedIndices (log : List Event) : (displayedIndices log).Nodup :=
  List.Nodup.filter _ (List.nodup_range _)

theorem lt_of_mem_displayedIndices (log : List Event) (j : Nat) (h : j ∈ displayedIndices log) :
    j < log.length := by
  simp only [displayedIndices, List.mem_filter, List.mem_range] at h
  exact h.1

/-- The loop on an array `pre ++ a :: (run ++ post)` of references in which
`a` is an `errored` entry without repeat count, `run` holds `errored` entries
with the same message, and neither the entry before `a` nor the entry after
the run merges with them. -/
theorem collapseLoop_around_run (log : List Event) (pre post run : List Nat) (a : Nat)
    (ea : Event) (m : String)
    (hlen : ∀ j ∈ pre ++ a :: (run ++ post), j < log.length)
    (hnd : (pre ++ a :: (run ++ post)).Nodup)
    (hea : log[a]? = some ea) (hva : ea.val = .errored m)
    (hrun : ∀ c ∈ run, ∃ ec, log[c]? = some ec ∧ ec.val = .errored m)
    (hleft : ∀ q, pre.getLast? = some q → collapses log a q = false)
    (hright : ∀ y, post.head? = some y → collapses log y a = false) :
    ∃ (heap : List Event) (pre' post' : List Nat),
      collapseLoop (pre ++ a :: (run ++ post)).length log (pre ++ a :: (run ++ post)) 1 =
        some (heap, pre' ++ a :: post') ∧
      pre'.Sublist pre ∧ post'.Sublist post ∧
      heap[a]? = some (bumpRepeat^[run.length] ea) := by
  have ha : a < log.length := hlen a (by simp)
  have ha_pre : a ∉ pre := by
    intro h
    rw [List.nodup_append] at hnd
    exact hnd.2.2 h (List.mem_cons_self _ _) 
  have ha_post : a ∉ post := by
    intro h
    rw [List.nodup_append, List.nodup_cons] at hnd
    exact hnd.2.1.1 (List.mem_append_right _ h)
  -- stage A: the entries before `a`
  have stageA : ∃ (heapA : List Event) (doneA : List Nat),
      collapseLoop (pre ++ a :: (run ++ post)).length log (pre ++ a :: (run ++ post)) 1 =
        collapseLoop (1 + post.length + run.length) heapA (doneA ++ a :: (run ++ post))
          (doneA.length + 1) ∧
      doneA.Sublist pre ∧ heapA.length = log.length ∧ heapA[a]? = some ea ∧
      ∀ j, keyAt heapA j = keyAt log j := by
    cases pre with
    | nil =>
      refine ⟨log, [], ?_, List.Sublist.refl _, rfl, hea, fun _ => rfl⟩
      simp only [List.nil_append, List.length_cons, List.length_append, List.length_nil]
      congr 1
      omega
    | cons q pre' =>
      obtain ⟨heap', mid, q', h1, h2, h3, h4, h5, h6⟩ :=
        collapseLoop_prefix pre' log [] q (a :: (run ++ post)) (2 + post.length + run.length)
          (fun j hj => hlen j (List.mem_append_left _ hj))
      obtain ⟨l, hl⟩ : ∃ l, (q :: pre').getLast? = some l := by
        cases h : (q :: pre').getLast? with
        | none => simp at h
        | some l => exact ⟨l, rfl⟩
      have hl_mem : l ∈ q :: pre' := List.mem_of_getLast?_eq_some hl
      have hq'_mem : q' ∈ q :: pre' := h2.subset (by simp)
      have hcol : collapses heap' a q' = false := by
        rw [collapses_congr_key log heap' a l a q' ha
          (hlen l (List.mem_append_left _ hl_mem)) (by rw [h3]; exact ha)
          (by rw [h3]; exact hlen q' (List.mem_append_left _ hq'_mem)) (h5 a)
          (by rw [h5, h6 l hl])]
        exact hleft l hl
      have hfuel : (q :: pre' ++ a :: (run ++ post)).length =
          2 + post.length + run.length + pre'.length := by
        simp only [List.cons_append, List.length_cons, List.length_append]
        omega
      have hstep := collapseLoop_step_keep (1 + post.length + run.length) heap' ([] ++ mid)
        (run ++ post) q' a (by rw [h3]; exact ha)
        (by rw [h3]; exact hlen q' (List.mem_append_left _ hq'_mem)) hcol
      have hfuel2 : 2 + post.length + run.length = 1 + post.length + run.length + 1 := by omega
      refine ⟨heap', ([] ++ mid) ++ [q'], ?_, ?_, h3, ?_, h5⟩
      · rw [hfuel]
        simp only [List.nil_append, List.length_nil, Nat.zero_add] at h1 hstep ⊢
        rw [List.cons_append, h1, hfuel2, hstep]
      · simpa using h2
      · rw [h4 a ha_pre]
        exact hea
  obtain ⟨heapA, doneA, hA, hsubA, hlenA, heaA, hkeyA⟩ := stageA
  -- stage B: the run
  have hsame : ∀ c ∈ run, ∃ ec, heapA[c]? = some ec ∧
      (sameError ec ea || sameNoResult ec ea) = true := by
    intro c hc
    have hcl : c < log.length := hlen c (by simp [hc])
    have hcA : c < heapA.length := by rw [hlenA]; exact hcl
    refine ⟨heapA[c], List.getElem?_eq_getElem hcA, ?_⟩
    have h1 : collapses heapA c a = collapses log c a :=
      collapses_congr_key log heapA c a c a hcl ha hcA (by rw [hlenA]; exact ha)
        (hkeyA c) (hkeyA a)
    have h2 : collapses log c a = true := by
      obtain ⟨ec, hec, hvc⟩ := hrun c hc
      simp [collapses, hec, hea, sameError, hvc, hva]
    rw [h2] at h1
    simpa [collapses, List.getElem?_eq_getElem hcA, heaA] using h1
  have hB := collapseLoop_run a doneA post run (1 + post.length) heapA ea heaA hsame
  have hkeyB : ∀ j, keyAt (heapA.set a (bumpRepeat^[run.length] ea)) j = keyAt log j := by
    intro j
    rw [keyAt_set heapA a j ea _ heaA (iterate_bump_val _ _), hkeyA]
  have heaB : (heapA.set a (bumpRepeat^[run.length] ea))[a]? =
      some (bumpRepeat^[run.length] ea) := by
    rw [getElem?_set_bump heapA a a ea _ heaA]; simp
  have hlenB : (heapA.set a (bumpRepeat^[run.length] ea)).length = log.length := by
    rw [List.length_set, hlenA]
  -- stage C: the entries after the run
  cases post with
  | nil =>
    refine ⟨_, doneA, [], ?_, hsubA, List.Sublist.refl _, heaB⟩
    rw [hA, hB]
    apply collapseLoop_done
    simp
  | cons y post' =>
    have hy : y < log.length := hlen y (by simp)
    have hcol : collapses (heapA.set a (bumpRepeat^[run.length] ea)) y a = false := by
      rw [collapses_congr_key log _ y a y a hy ha (by rw [hlenB]; exact hy)
        (by rw [hlenB]; exact ha) (hkeyB y) (hkeyB a)]
      exact hright y rfl
    have hstep := collapseLoop_step_keep (1 + post'.length)
      (heapA.set a (bumpRepeat^[run.length] ea)) doneA post' a y
      (by rw [hlenB]; exact hy) (by rw [hlenB]; exact ha) hcol
    obtain ⟨heapC, mid, q', h1, h2, h3, h4, h5, h6⟩ :=
      collapseLoop_prefix post' (heapA.set a (bumpRepeat^[run.length] ea)) (doneA ++ [a]) y [] 1
        (by
          intro j hj
          rw [hlenB]
          exact hlen j (by simp only [List.mem_append, List.mem_cons] at hj ⊢; tauto))
    refine ⟨heapC, doneA, mid ++ [q'], ?_, hsubA, h2, ?_⟩
    · have hfuel : 1 + (y :: post').length = 1 + post'.length + 1 := by
        simp only [List.length_cons]; omega
      rw [hA, hB, hfuel, hstep]
      rw [List.append_nil] at h1
      have hend : (doneA ++ [a] ++ mid ++ [q']).length ≤ (doneA ++ [a] ++ mid).length + 1 := by
        simp only [List.length_append, List.length_cons, List.length_nil]
        omega
      rw [h1, collapseLoop_done 1 heapC _ _ hend]
      simp
    · rw [h4 a ha_post]
      exact heaB

/-! ## Repeat count of collapsed errors -/

theorem not_mem_of_sublists (x a : Nat) (pre pre' post post' : List Nat)
    (h1 : pre'.Sublist pre) (h2 : post'.Sublist post) (hx : x ∉ pre) (hxa : x ≠ a)
    (hx' : x ∉ post) : x ∉ pre' ++ a :: post' := by
  intro h
  rcases List.mem_append.mp h with h | h
  · exact hx (h1.subset h)
  · rcases List.mem_cons.mp h with h | h
    · exact hxa h
    · exact hx' (h2.subset h)

/-- What `collapsedLog` returns when, among the displayed entries, an
`errored` entry `a` without repeat count is followed by a run of `errored`
entries with the same message, the entry before `a` does not merge with it
and the entry after the run does not either: the run is gone, `a` is kept
and its `repeatCount` is the length of the run. -/
theorem collapsedLog_run (log : List Event) (pre post run : List Nat) (a : Nat) (ea : Event)
    (m : String) (hidx : displayedIndices log = pre ++ a :: (run ++ post))
    (hea : log[a]? = some ea) (hva : ea.val = .errored m) (hra : ea.repeatCount = none)
    (hrun : ∀ c ∈ run, ∃ ec, log[c]? = some ec ∧ ec.val = .errored m)
    (hne : run ≠ [])
    (hleft : ∀ q, pre.getLast? = some q → collapses log a q = false)
    (hright : ∀ y, post.head? = some y → collapses log y a = false) :
    ∃ (r : Collapsed) (pre' post' : List Nat),
      collapsedLog log = some r ∧ r.indices = pre' ++ a :: post' ∧
      pre'.Sublist pre ∧ post'.Sublist post ∧ (∀ c ∈ run, c ∉ r.indices) ∧
      r.log[a]? = some { ea with repeatCount := some run.length } ∧
      r.entries = r.indices.filterMap (fun j => r.log[j]?) := by
  have hnd : (pre ++ a :: (run ++ post)).Nodup := hidx ▸ nodup_displayedIndices log
  have hlen : ∀ j ∈ pre ++ a :: (run ++ post), j < log.length :=
    fun j hj => lt_of_mem_displayedIndices log j (hidx ▸ hj)
  obtain ⟨heap, pre', post', hloop, hs1, hs2, hheap⟩ :=
    collapseLoop_around_run log pre post run a ea m hlen hnd hea hva hrun hleft hright
  obtain ⟨n, hn⟩ : ∃ n, run.length = n + 1 := by
    cases run with
    | nil => exact absurd rfl hne
    | cons c cs => exact ⟨cs.length, rfl⟩
  have hbump : bumpRepeat^[run.length] ea = { ea with repeatCount := some run.length } := by
    rw [hn]
    exact iterate_bump_fresh n ea hra
  rw [hbump] at hheap
  refine ⟨⟨heap, pre' ++ a :: post', (pre' ++ a :: post').filterMap (fun j => heap[j]?)⟩,
    pre', post', ?_, rfl, hs1, hs2, ?_, hheap, rfl⟩
  · unfold collapsedLog
    simp only [hidx, hloop]
  · intro c hc
    rw [List.nodup_append, List.nodup_cons, List.nodup_append] at hnd
    apply not_mem_of_sublists c a pre pre' post post' hs1 hs2
    · intro hcp
      exact hnd.2.2 hcp (List.mem_cons_of_mem _ (List.mem_append_left _ hc)) 
    · intro hca
      exact hnd.2.1.1 (hca ▸ List.mem_append_left _ hc)
    · intro hcp
      exact hnd.2.1.2.2.2 hc hcp 

/-- C4, as the code has it. When, among the displayed entries of a log,
two adjacent entries `a`, `b` are `errored` events with the same message and
no `repeatCount`, and neither the displayed entry before them nor the one
after them merges with them, `collapsedLog` returns a single entry for them:
`b` is dropped and `a` is returned carrying `repeatCount == 1`. When three
such entries `a`, `b`, `c` are adjacent, the single entry `a` is returned
carrying `repeatCount == 2`. The count is the number of entries merged away,
not the number of occurrences. -/
theorem collapsed_errors_repeat_count :
    (∀ (log : List Event) (pre post : List Nat) (a b : Nat) (ea eb : Event) (m : String),
      displayedIndices log = pre ++ a :: b :: post →
      log[a]? = some ea → log[b]? = some eb →
      ea.val = .errored m → eb.val = .errored m →
      ea.repeatCount = none → eb.repeatCount = none →
      (∀ q, pre.getLast? = some q → collapses log a q = false) →
      (∀ y, post.head? = some y → collapses log y b = false) →
      ∃ (r : Collapsed) (pre' post' : List Nat),
        collapsedLog log = some r ∧ r.indices = pre' ++ a :: post' ∧
        pre'.Sublist pre ∧ post'.Sublist post ∧ b ∉ r.indices ∧
        r.log[a]? = some { ea with repeatCount := some 1 } ∧
        r.entries = r.indices.filterMap (fun j => r.log[j]?)) ∧
    (∀ (log : List Event) (pre post : List Nat) (a b c : Nat) (ea eb ec : Event) (m : String),
      displayedIndices log = pre ++ a :: b :: c :: post →
      log[a]? = some ea → log[b]? = some eb → log[c]? = some ec →
      ea.val = .errored m → eb.val = .errored m → ec.val = .errored m →
      ea.repeatCount = none → eb.repeatCount = none → ec.repeatCount = none →
      (∀ q, pre.getLast? = some q → collapses log a q = false) →
      (∀ y, post.head? = some y → collapses log y c = false) →
      ∃ (r : Collapsed) (pre' post' : List Nat),
        collapsedLog log = some r ∧ r.indices = pre' ++ a :: post' ∧
        pre'.Sublist pre ∧ post'.Sublist post ∧ b ∉ r.indices ∧ c ∉ r.indices ∧
        r.log[a]? = some { ea with repeatCount := some 2 } ∧
        r.entries = r.indices.filterMap (fun j => r.log[j]?)) := by
  constructor
  · intro log pre post a b ea eb m hidx hea heb hva hvb hra _ hleft hright
    obtain ⟨r, pre', post', h1, h2, h3, h4, h5, h6, h7⟩ :=
      collapsedLog_run log pre post [b] a ea m (by simpa using hidx) hea hva hra
        (by
          intro x hx
          rw [List.mem_singleton] at hx
          subst hx
          exact ⟨eb, heb, hvb⟩)
        (by simp) hleft
        (fun y hy => by
          rw [collapses_congr_right log y a b ea eb hea heb (by rw [hva, hvb])]
          exact hright y hy)
    exact ⟨r, pre', post', h1, h2, h3, h4, h5 b (by simp), h6, h7⟩
  · intro log pre post a b c ea eb ec m hidx hea heb hec hva hvb hvc hra _ _ hleft hright
    obtain ⟨r, pre', post', h1, h2, h3, h4, h5, h6, h7⟩ :=
      collapsedLog_run log pre post [b, c] a ea m (by simpa using hidx) hea hva hra
        (by
          intro x hx
          simp only [List.mem_cons, List.mem_singleton, List.not_mem_nil, or_false] at hx
          rcases hx with rfl | rfl
          · exact ⟨eb, heb, hvb⟩
          · exact ⟨ec, hec, hvc⟩)
        (by simp) hleft
        (fun y hy => by
          rw [collapses_congr_right log y a c ea ec hea hec (by rw [hva, hvc])]
          exact hright y hy)
    exact ⟨r, pre', post', h1, h2, h3, h4, h5 b (by simp), h5 c (by simp), h6, h7⟩

/-- The theorem `collapsed_errors_repeat_count` at the logs of two and of
three failed cycles: in both the entry at position 1 is kept, with
`repeatCount` 1 and 2. -/
theorem collapsed_errors_repeat_count_witness :
    (∃ r, collapsedLog twoErrorsLog = some r ∧ 3 ∉ r.indices ∧
        r.log[1]? = some { statusEvent 7 (.errored "timeout") with repeatCount := some 1 }) ∧
      (∃ r, collapsedLog threeErrorsLog = some r ∧ 3 ∉ r.indices ∧ 5 ∉ r.indices ∧
        r.log[1]? = some { statusEvent 9 (.errored "timeout") with repeatCount := some 2 }) := by
  constructor
  · obtain ⟨r, _, _, h1, _, _, _, h5, h6, _⟩ :=
      collapsed_errors_repeat_count.1 twoErrorsLog [0] [6] 1 3
        (statusEvent 7 (.errored "timeout")) (statusEvent 5 (.errored "timeout")) "timeout"
        (by decide) (by decide) (by decide) rfl rfl rfl rfl
        (fun q hq => by
          simp only [List.getLast?_singleton, Option.some.injEq] at hq
          subst hq
          decide)
        (fun y hy => by
          simp only [List.head?_cons, Option.some.injEq] at hy
          subst hy
          decide)
    exact ⟨r, h1, h5, h6⟩
  · obtain ⟨r, _, _, h1, _, _, _, h5, h5', h6, _⟩ :=
      collapsed_errors_repeat_count.2 threeErrorsLog [0] [8] 1 3 5
        (statusEvent 9 (.errored "timeout")) (statusEvent 7 (.errored "timeout"))
        (statusEvent 5 (.errored "timeout")) "timeout"
        (by decide) (by decide) (by decide) (by decide) rfl rfl rfl rfl rfl rfl
        (fun q hq => by
          simp only [List.getLast?_singleton, Option.some.injEq] at hq
          subst hq
          decide)
        (fun y hy => by
          simp only [List.head?_cons, Option.some.injEq] at hy
          subst hy
          decide)
    exact ⟨r, h1, h5, h5', h6⟩

/-- C4 as stated fails: for two adjacent identical `errored` events without
`repeatCount` the single collapsed entry carries `repeatCount` 1, not 2, and
for three it carries 2, not 3 (the other two displayed entries, `reset` and
`success`, carry none). -/
theorem collapsed_repeat_count_off_by_one :
    (collapsedLog twoErrorsLog).map (fun r => r.entries.map (·.repeatCount)) =
        some [none, some 1, none] ∧
      (collapsedLog twoErrorsLog).map (fun r => r.entries.map (·.val)) =
        some [.reset, .errored "timeout", .success 3 0 3] ∧
      (collapsedLog threeErrorsLog).map (fun r => r.entries.map (·.repeatCount)) =
        some [none, some 2, none] ∧
      (collapsedLog threeErrorsLog).map (fun r => r.entries.map (·.val)) =
        some [.reset, .errored "timeout", .success 3 0 3] := by
  decide

end Airtable
